import Mathlib

/-!
# Verification of the AIVA CLI core against its specification

This file gives a shallow embedding of the parts of the `aiva-cli` repository
that the specification's claims are about, and proves (or refutes) each claim.

Embedded components:
* `src/aiva_cli/core/segmenter.py` — the script segmentation algorithm
  (`ScriptSegmenter` and the module-level `segment_script`).  Python strings are
  modeled as `List Char` (`Str`), Python floats as exact rationals `ℚ`
  (the only float constants involved, `2.5` and `8.0`, are exactly
  representable, and all claims proved here are branch-insensitive facts).
  Regular-expression operations are modeled by equivalent character scans.
* `src/aiva_cli/core/pipeline.py` — the `ContentPipeline` state machine
  (`generate_content`, `resume_pipeline` and the per-segment stage loops),
  with the external text/image collaborators abstracted as outcome oracles
  and file-system writes dropped (they do not feed back into the state).
* `src/aiva_cli/crew_config/crew.py` — `AivaCrew.execute`,
  `AivaCrew.validate_workflow` and `WorkflowResult.get_final_output`, with the
  agents abstracted as behaviour functions.
-/

namespace Aiva

/-- Python strings, modeled as lists of characters. -/
abbrev Str := List Char

/-- Python's `\s` / `str.split()` whitespace test. -/
def isSpace (c : Char) : Bool := c.isWhitespace

/-- Helper for termination: `dropWhile` never lengthens a list. -/
theorem lenDropWhileLe (p : Char → Bool) (l : Str) :
    (l.dropWhile p).length ≤ l.length :=
  (List.dropWhile_sublist p).length_le

/-- Helper for termination: `tail` never lengthens a list. -/
theorem lenTailLe (l : Str) : l.tail.length ≤ l.length :=
  (List.tail_sublist l).length_le

/-- Sentence-ending punctuation class `[.!?]` from `segmenter.py`. -/
def isSentEnd (c : Char) : Bool := c == '.' || c == '!' || c == '?'

/-- Clause punctuation class `[,;:]` from `segmenter.py` line 68. -/
def isClausePunct (c : Char) : Bool := c == ',' || c == ';' || c == ':'

/-- Left strip: drop leading whitespace (half of Python `str.strip()`). -/
def trimLeft (l : Str) : Str := l.dropWhile isSpace

/-- Python `str.strip()`: drop leading and trailing whitespace. -/
def strip (l : Str) : Str := (trimLeft l).rdropWhile isSpace

/-- `re.sub(r'\s+', ' ', ·)` — replace each maximal whitespace run by a single
space (`segmenter.py` line 60; the input there is already stripped). -/
def collapseWS : Str → Str
  | [] => []
  | c :: rest =>
    if isSpace c then ' ' :: collapseWS (rest.dropWhile isSpace)
    else c :: collapseWS rest
termination_by l => l.length
decreasing_by
  · exact Nat.lt_succ_of_le (lenDropWhileLe isSpace rest)
  · exact Nat.lt_succ_self _

/-- Drop characters up to and including the first occurrence of `c`. -/
def dropThrough (c : Char) (l : Str) : Str :=
  (l.dropWhile (fun x => !(x == c))).tail

/-- `re.sub(r'\[.*?\]', '', ·)` (and the `(...)` variant) — remove each
non-greedy delimited span (`segmenter.py` lines 63-64).  A match starts at an
opening delimiter and extends to the nearest closing delimiter after it; an
opening delimiter with no closing one is kept.  (By this point of
`clean_text` the string contains no newline, so `.` matches every character.) -/
def removeDelim (o c : Char) : Str → Str
  | [] => []
  | x :: rest =>
    if x == o && rest.contains c then removeDelim o c (dropThrough c rest)
    else x :: removeDelim o c rest
termination_by l => l.length
decreasing_by
  · exact Nat.lt_succ_of_le (Nat.le_trans (lenTailLe _) (lenDropWhileLe _ rest))
  · exact Nat.lt_succ_self _

/-- Lookahead used by `punctNorm`: does a whitespace run followed by a
punctuation char start here? -/
def wsThenPunct (isP : Char → Bool) (l : Str) : Bool :=
  match l.dropWhile isSpace with
  | p :: _ => isP p
  | [] => false

/-- Character scan for `re.sub(r'\s*([P])\s*', r'\1 ', ·)`.  `skip` is true
while consuming the greedy trailing `\s*` of a match just emitted.  A
whitespace run followed by a punctuation char is dropped one character at a
time (the `wsThenPunct` lookahead keeps holding until the punctuation char is
reached); the punctuation char itself is emitted followed by one space, and
the whitespace after it is consumed in `skip` mode. -/
def punctNormAux (isP : Char → Bool) : Bool → Str → Str
  | _, [] => []
  | skip, c :: rest =>
    if skip && isSpace c then punctNormAux isP true rest
    else if isP c then c :: ' ' :: punctNormAux isP true rest
    else if isSpace c && wsThenPunct isP (c :: rest) then punctNormAux isP false rest
    else c :: punctNormAux isP false rest

/-- `re.sub(r'\s*([P])\s*', r'\1 ', ·)` for a punctuation class `isP`
(`segmenter.py` lines 67-68).  Scanning left to right: a whitespace run
followed by a punctuation char, or a bare punctuation char, together with the
whitespace run after it, is replaced by the punctuation char plus one space;
whitespace not adjacent to punctuation is kept as-is. -/
def punctNorm (isP : Char → Bool) (l : Str) : Str :=
  punctNormAux isP false l

/-- `ScriptSegmenter.clean_text` (`segmenter.py` lines 57-70). -/
def cleanText (text : Str) : Str :=
  let t1 := collapseWS (strip text)
  let t2 := removeDelim '[' ']' t1
  let t3 := removeDelim '(' ')' t2
  let t4 := punctNorm isSentEnd t3
  let t5 := punctNorm isClausePunct t4
  strip t5

/-- `re.split(r'(?<=[.!?])\s+', ·)` — split at each whitespace run that
immediately follows sentence-ending punctuation, consuming the run
(`segmenter.py` line 75).  Always returns at least one (possibly empty) part. -/
def sentSplit : Str → List Str
  | [] => [[]]
  | c :: rest =>
    if isSentEnd c && (match rest with | x :: _ => isSpace x | [] => false) then
      [c] :: sentSplit (rest.dropWhile isSpace)
    else
      match sentSplit rest with
      | p :: ps => (c :: p) :: ps
      | [] => [[c]]
termination_by l => l.length
decreasing_by
  · exact Nat.lt_succ_of_le (lenDropWhileLe isSpace rest)
  · exact Nat.lt_succ_self _

/-- `ScriptSegmenter.split_into_sentences` (`segmenter.py` lines 72-76):
split, strip each part, and drop the parts that are empty after stripping. -/
def splitIntoSentences (t : Str) : List Str :=
  ((sentSplit t).map strip).filter (fun s => !s.isEmpty)

/-- Python `str.split()` with no argument: the maximal whitespace-free runs. -/
def wordsOf : Str → List Str
  | [] => []
  | c :: rest =>
    if isSpace c then wordsOf rest
    else (c :: rest.takeWhile (fun x => !isSpace x)) ::
      wordsOf (rest.dropWhile (fun x => !isSpace x))
termination_by l => l.length
decreasing_by
  · exact Nat.lt_succ_self _
  · exact Nat.lt_succ_of_le (lenDropWhileLe _ rest)

/-- `ScriptSegmenter.estimate_duration` (`segmenter.py` lines 78-81):
`len(text.split()) / words_per_second` with `words_per_second = 2.5`. -/
def estimateDuration (t : Str) : ℚ := ((wordsOf t).length : ℚ) / (5/2)

/-- The `Segment` dataclass (`segmenter.py` lines 14-33).  `index` is a
rational because `_split_segments` temporarily assigns `index + 0.5`. -/
structure Segment where
  index : ℚ
  text : Str
  duration : ℚ
  word_count : ℕ
  start_time : ℚ
  end_time : ℚ
deriving Repr, DecidableEq

/-- Building one segment as in `create_initial_segments`
(`segmenter.py` lines 96-103 and 121-128). -/
def closeSegment (segs : List Segment) (curText : Str) (curDur start : ℚ) :
    Segment :=
  { index := (segs.length : ℚ) + 1
    text := strip curText
    duration := curDur
    word_count := (wordsOf curText).length
    start_time := start
    end_time := start + curDur }

/-- The sentence loop of `create_initial_segments` (`segmenter.py` lines
91-117), with loop state `(segments, current_text, current_duration,
start_time)`. -/
def initLoop (targetDuration : ℚ) :
    List Str → List Segment → Str → ℚ → ℚ → List Segment × Str × ℚ × ℚ
  | [], segs, cur, curDur, start => (segs, cur, curDur, start)
  | s :: rest, segs, cur, curDur, start =>
    let sd := estimateDuration s
    if !cur.isEmpty && curDur + sd > targetDuration then
      initLoop targetDuration rest (segs ++ [closeSegment segs cur curDur start])
        s sd (start + curDur)
    else if !cur.isEmpty then
      initLoop targetDuration rest segs (cur ++ ' ' :: s) (curDur + sd) start
    else
      initLoop targetDuration rest segs s sd start

/-- `ScriptSegmenter.create_initial_segments` (`segmenter.py` lines 83-131). -/
def createInitialSegments (targetDuration : ℚ) (text : Str) : List Segment :=
  let out := initLoop targetDuration (splitIntoSentences text) [] [] 0 0
  if !out.2.1.isEmpty then
    out.1 ++ [closeSegment out.1 out.2.1 out.2.2.1 out.2.2.2]
  else out.1

/-- Python `" ".join(·)`. -/
def joinWords : List Str → Str
  | [] => []
  | [w] => w
  | w :: ws => w ++ ' ' :: joinWords ws

/-- Splitting one segment at the word-count midpoint
(`segmenter.py` lines 163-190). -/
def splitHalves (s : Segment) : Segment × Segment :=
  let ws := wordsOf s.text
  let mid := ws.length / 2
  let firstText := joinWords (ws.take mid)
  let secondText := joinWords (ws.drop mid)
  let d1 := estimateDuration firstText
  let d2 := estimateDuration secondText
  ({ index := s.index
     text := firstText
     duration := d1
     word_count := (wordsOf firstText).length
     start_time := s.start_time
     end_time := s.start_time + d1 },
   { index := s.index + 1/2
     text := secondText
     duration := d2
     word_count := (wordsOf secondText).length
     start_time := s.start_time + d1
     end_time := s.end_time })

/-- One iteration of the split loop (`segmenter.py` lines 157-194): locate the
segment with the given original index, replace it by its first half and insert
the second half right after it.  Python's `next(...)` raises `StopIteration`
when the index is absent; in every reachable call the index is present (see
the invariant lemmas below), and in that unreachable case this model returns
the list unchanged. -/
def doSplit (acc : List Segment) (s : Segment) : List Segment :=
  let j := acc.findIdx (fun t => decide (t.index = s.index))
  let halves := splitHalves s
  (acc.set j halves.1).insertIdx (j+1) halves.2

/-- The final renumbering `segment.index = i + 1`
(`segmenter.py` lines 196-198 and 243-245). -/
def renumber (segs : List Segment) : List Segment :=
  segs.mapIdx (fun i s => { s with index := (i : ℚ) + 1 })

/-- `ScriptSegmenter._split_segments` (`segmenter.py` lines 148-200).
`sorted(segments, key=duration, reverse=True)` is a stable descending sort,
modeled by `mergeSort` with the reversed comparison; the loop splits the first
`min(needed_splits, len(segments))` entries of that ordering, each original
segment at most once. -/
def splitSegments (targetSegments : Int) (segments : List Segment) :
    List Segment :=
  let needed : Int := targetSegments - segments.length
  let sortedSegs := segments.mergeSort (fun a b => decide (b.duration ≤ a.duration))
  let toSplit := sortedSegs.take (min needed (segments.length : Int)).toNat
  renumber (toSplit.foldl doSplit segments)

/-- The argmin scan of `_merge_segments` (`segmenter.py` lines 213-221):
first index attaining the minimal value, starting from `best = 0` and
`best_val = inf` (modeled by `Option`). -/
def findMinIdxAux : List ℚ → ℕ → ℕ → Option ℚ → ℕ
  | [], _, best, _ => best
  | v :: rest, i, best, bestVal =>
    match bestVal with
    | none => findMinIdxAux rest (i+1) i (some v)
    | some b =>
      if v < b then findMinIdxAux rest (i+1) i (some v)
      else findMinIdxAux rest (i+1) best (some b)

/-- Index of the adjacent pair with the smallest combined duration. -/
def bestMergeIdx (segs : List Segment) : ℕ :=
  findMinIdxAux ((segs.zip segs.tail).map (fun p => p.1.duration + p.2.duration))
    0 0 none

/-- The merged segment built at `segmenter.py` lines 227-237. -/
def mergedSeg (first second : Segment) : Segment :=
  { index := first.index
    text := first.text ++ ' ' :: second.text
    duration := first.duration + second.duration
    word_count := (wordsOf (first.text ++ ' ' :: second.text)).length
    start_time := first.start_time
    end_time := second.end_time }

/-- Merging the adjacent pair at index `i` (`segmenter.py` lines 223-241).
Python would raise `IndexError` were `i+1` out of range; the merge loop only
calls this with a valid pair index, and in the unreachable case this model
returns the list unchanged. -/
def mergeAt (segs : List Segment) (i : ℕ) : List Segment :=
  match segs[i]?, segs[i+1]? with
  | some first, some second =>
    (segs.set i (mergedSeg first second)).eraseIdx (i+1)
  | _, _ => segs

/-- The merge loop of `_merge_segments` (`segmenter.py` lines 209-241):
`excess` iterations, each stopping early if at most one segment remains. -/
def mergeLoop : ℕ → List Segment → List Segment
  | 0, segs => segs
  | n+1, segs =>
    if segs.length ≤ 1 then segs
    else mergeLoop n (mergeAt segs (bestMergeIdx segs))

/-- `ScriptSegmenter._merge_segments` (`segmenter.py` lines 202-247). -/
def mergeSegments (targetSegments : Int) (segments : List Segment) :
    List Segment :=
  renumber (mergeLoop ((segments.length - targetSegments).toNat) segments)

/-- `ScriptSegmenter.adjust_to_target_count` (`segmenter.py` lines 133-146). -/
def adjustToTargetCount (targetSegments : Int) (segs : List Segment) :
    List Segment :=
  if (segs.length : Int) = targetSegments then segs
  else if (segs.length : Int) < targetSegments then
    splitSegments targetSegments segs
  else mergeSegments targetSegments segs

/-- `ScriptSegmenter.segment_script` (`segmenter.py` lines 249-283), as used by
the module-level `segment_script(script_text, target_segments,
target_duration)` convenience function (lines 326-339).  After the adjustment
the Python code computes `avg_duration = total_duration / len(final_segments)`
(line 275), which raises `ZeroDivisionError` exactly when the final segment
list is empty; this is modeled by the `Except` error case. -/
def segmentScript (scriptText : Str) (targetSegments : Int)
    (targetDuration : ℚ) : Except String (List Segment) :=
  let cleaned := cleanText scriptText
  let initial := createInitialSegments targetDuration cleaned
  let finalSegs := adjustToTargetCount targetSegments initial
  if finalSegs.isEmpty then .error "ZeroDivisionError: division by zero"
  else .ok finalSegs

/-! ## Word-level lemmas

`wordsOf` (Python `str.split()`) is the measure by which claim C5 compares
segment texts with the cleaned input; these lemmas characterise how it
interacts with the string operations the segmenter performs. -/

theorem wordsOf_nil : wordsOf [] = [] := by
  simp [wordsOf]

theorem wordsOf_cons (c : Char) (rest : Str) :
    wordsOf (c :: rest) =
      if isSpace c then wordsOf rest
      else (c :: rest.takeWhile (fun x => !isSpace x)) ::
        wordsOf (rest.dropWhile (fun x => !isSpace x)) := by
  rw [wordsOf]

theorem wordsOf_cons_space (c : Char) (rest : Str) (h : isSpace c) :
    wordsOf (c :: rest) = wordsOf rest := by
  rw [wordsOf_cons, if_pos h]

theorem wordsOf_cons_nonspace (c : Char) (rest : Str) (h : ¬ isSpace c) :
    wordsOf (c :: rest) =
      (c :: rest.takeWhile (fun x => !isSpace x)) ::
        wordsOf (rest.dropWhile (fun x => !isSpace x)) := by
  rw [wordsOf_cons, if_neg h]

/-- Words of an all-whitespace string: none. -/
theorem wordsOf_all_space : ∀ (l : Str), (∀ c ∈ l, isSpace c) → wordsOf l = []
  | [], _ => wordsOf_nil
  | c :: rest, h => by
    rw [wordsOf_cons_space c rest (h c (List.mem_cons_self c rest))]
    exact wordsOf_all_space rest (fun x hx => h x (List.mem_cons_of_mem c hx))

theorem takeWhile_append_of_all {p : Char → Bool} :
    ∀ (a b : Str), (∀ x ∈ a, p x) → (a ++ b).takeWhile p = a ++ b.takeWhile p
  | [], _, _ => rfl
  | c :: a', b, h => by
    have hc : p c := h c (List.mem_cons_self c a')
    simp only [List.cons_append, List.takeWhile_cons, hc, if_true]
    rw [takeWhile_append_of_all a' b (fun x hx => h x (List.mem_cons_of_mem c hx))]

theorem dropWhile_append_of_all {p : Char → Bool} :
    ∀ (a b : Str), (∀ x ∈ a, p x) → (a ++ b).dropWhile p = b.dropWhile p
  | [], _, _ => rfl
  | c :: a', b, h => by
    have hc : p c := h c (List.mem_cons_self c a')
    simp only [List.cons_append, List.dropWhile_cons, hc, if_true]
    exact dropWhile_append_of_all a' b (fun x hx => h x (List.mem_cons_of_mem c hx))

theorem takeWhile_append_of_stop {p : Char → Bool} :
    ∀ (a b : Str), a.dropWhile p ≠ [] →
      (a ++ b).takeWhile p = a.takeWhile p ∧
      (a ++ b).dropWhile p = a.dropWhile p ++ b
  | [], _, h => absurd rfl h
  | c :: a', b, h => by
    by_cases hc : p c
    · simp only [List.dropWhile_cons, hc, if_true] at h
      have ih := takeWhile_append_of_stop a' b h
      simp only [List.cons_append, List.takeWhile_cons, List.dropWhile_cons, hc,
        if_true, ih.1, ih.2, and_self]
    · simp only [List.cons_append, List.takeWhile_cons, List.dropWhile_cons, hc,
        if_false, Bool.false_eq_true, List.cons_append, and_self]

/-- Key compositional fact: splitting at an explicit space separator. -/
theorem wordsOf_append_space : ∀ (a b : Str),
    wordsOf (a ++ ' ' :: b) = wordsOf a ++ wordsOf b
  | [], b => by
    rw [List.nil_append, wordsOf_cons_space ' ' b (by decide), wordsOf_nil,
      List.nil_append]
  | c :: a', b => by
    by_cases h : isSpace c
    · rw [List.cons_append, wordsOf_cons_space c _ h, wordsOf_cons_space c a' h]
      exact wordsOf_append_space a' b
    · rw [List.cons_append, wordsOf_cons_nonspace c _ h, wordsOf_cons_nonspace c a' h]
      by_cases hd : a'.dropWhile (fun x => !isSpace x) = []
      · have hall : ∀ x ∈ a', (fun x => !isSpace x) x :=
          (List.dropWhile_eq_nil_iff).mp hd
        have htw : a'.takeWhile (fun x => !isSpace x) = a' := by
          have := List.takeWhile_append_dropWhile (p := fun x => !isSpace x) (l := a')
          rw [hd, List.append_nil] at this; exact this
        rw [takeWhile_append_of_all a' (' ' :: b) hall,
          dropWhile_append_of_all a' (' ' :: b) hall, htw, hd]
        have : (' ' :: b).takeWhile (fun x => !isSpace x) = [] := by
          simp [List.takeWhile_cons, isSpace]
        have hdrop : (' ' :: b).dropWhile (fun x => !isSpace x) = ' ' :: b := by
          simp [List.dropWhile_cons, isSpace]
        rw [this, hdrop, List.append_nil, wordsOf_cons_space ' ' b (by decide),
          wordsOf_nil]
        rfl
      · obtain ⟨h1, h2⟩ := takeWhile_append_of_stop a' (' ' :: b) hd
        rw [h1, h2, wordsOf_append_space (a'.dropWhile fun x => !isSpace x) b,
          List.cons_append]
termination_by a _ => a.length
decreasing_by
  · exact Nat.lt_succ_self _
  · exact Nat.lt_succ_of_le (lenDropWhileLe _ a')

/-- Appending trailing whitespace does not change the words. -/
theorem wordsOf_append_spaces : ∀ (a sp : Str), (∀ c ∈ sp, isSpace c) →
    wordsOf (a ++ sp) = wordsOf a
  | [], sp, hsp => by rw [List.nil_append, wordsOf_all_space sp hsp, wordsOf_nil]
  | c :: a', sp, hsp => by
    by_cases h : isSpace c
    · rw [List.cons_append, wordsOf_cons_space c _ h, wordsOf_cons_space c a' h]
      exact wordsOf_append_spaces a' sp hsp
    · rw [List.cons_append, wordsOf_cons_nonspace c _ h, wordsOf_cons_nonspace c a' h]
      by_cases hd : a'.dropWhile (fun x => !isSpace x) = []
      · have hall : ∀ x ∈ a', (fun x => !isSpace x) x :=
          (List.dropWhile_eq_nil_iff).mp hd
        have htw : a'.takeWhile (fun x => !isSpace x) = a' := by
          have := List.takeWhile_append_dropWhile (p := fun x => !isSpace x) (l := a')
          rw [hd, List.append_nil] at this; exact this
        have hsptw : sp.takeWhile (fun x => !isSpace x) = [] := by
          cases sp with
          | nil => rfl
          | cons s sp' =>
            have : isSpace s := hsp s (List.mem_cons_self s sp')
            simp [List.takeWhile_cons, this]
        have hspdw : sp.dropWhile (fun x => !isSpace x) = sp := by
          cases sp with
          | nil => rfl
          | cons s sp' =>
            have : isSpace s := hsp s (List.mem_cons_self s sp')
            simp [List.dropWhile_cons, this]
        rw [takeWhile_append_of_all a' sp hall, dropWhile_append_of_all a' sp hall,
          htw, hd, hsptw, hspdw, List.append_nil, wordsOf_all_space sp hsp,
          wordsOf_nil]
      · obtain ⟨h1, h2⟩ := takeWhile_append_of_stop a' sp hd
        rw [h1, h2, wordsOf_append_spaces (a'.dropWhile fun x => !isSpace x) sp hsp]
termination_by a _ _ => a.length
decreasing_by
  · exact Nat.lt_succ_self _
  · exact Nat.lt_succ_of_le (lenDropWhileLe _ a')

/-- Every word produced by `wordsOf` is non-empty and whitespace-free. -/
theorem wordsOf_words_ok : ∀ (l : Str), ∀ w ∈ wordsOf l,
    w ≠ [] ∧ ∀ c ∈ w, ¬ isSpace c
  | [], w, hw => by rw [wordsOf_nil] at hw; exact absurd hw (List.not_mem_nil w)
  | c :: rest, w, hw => by
    by_cases h : isSpace c
    · rw [wordsOf_cons_space c rest h] at hw
      exact wordsOf_words_ok rest w hw
    · rw [wordsOf_cons_nonspace c rest h] at hw
      rcases List.mem_cons.mp hw with heq | hmem
      · subst heq
        refine ⟨List.cons_ne_nil c _, ?_⟩
        intro x hx
        rcases List.mem_cons.mp hx with rfl | hx'
        · exact h
        · have := List.mem_takeWhile_imp hx'
          simpa using this
      · exact wordsOf_words_ok (rest.dropWhile fun x => !isSpace x) w hmem
termination_by l _ _ => l.length
decreasing_by
  · exact Nat.lt_succ_self _
  · exact Nat.lt_succ_of_le (lenDropWhileLe _ rest)

/-- A non-empty whitespace-free string is a single word. -/
theorem wordsOf_single (w : Str) (hne : w ≠ []) (hw : ∀ c ∈ w, ¬ isSpace c) :
    wordsOf w = [w] := by
  cases w with
  | nil => exact absurd rfl hne
  | cons c rest =>
    have hc : ¬ isSpace c := hw c (List.mem_cons_self c rest)
    have hall : ∀ x ∈ rest, (fun x => !isSpace x) x := by
      intro x hx
      simpa using hw x (List.mem_cons_of_mem c hx)
    have htw : rest.takeWhile (fun x => !isSpace x) = rest := by
      have hd : rest.dropWhile (fun x => !isSpace x) = [] :=
        (List.dropWhile_eq_nil_iff).mpr hall
      have := List.takeWhile_append_dropWhile (p := fun x => !isSpace x) (l := rest)
      rw [hd, List.append_nil] at this; exact this
    have hd : rest.dropWhile (fun x => !isSpace x) = [] :=
      (List.dropWhile_eq_nil_iff).mpr hall
    rw [wordsOf_cons_nonspace c rest hc, htw, hd, wordsOf_nil]

/-- `" ".join` is a left inverse of `str.split()` on lists of genuine words. -/
theorem wordsOf_joinWords : ∀ (ws : List Str),
    (∀ w ∈ ws, w ≠ [] ∧ ∀ c ∈ w, ¬ isSpace c) → wordsOf (joinWords ws) = ws
  | [], _ => wordsOf_nil
  | [w], h => by
    have := h w (List.mem_cons_self w [])
    rw [joinWords]
    exact wordsOf_single w this.1 this.2
  | w :: w' :: ws', h => by
    have hjw : joinWords (w :: w' :: ws') = w ++ ' ' :: joinWords (w' :: ws') := rfl
    rw [hjw, wordsOf_append_space,
      wordsOf_joinWords (w' :: ws') (fun x hx => h x (List.mem_cons_of_mem w hx))]
    have hw := h w (List.mem_cons_self w _)
    rw [wordsOf_single w hw.1 hw.2, List.singleton_append]

theorem wordsOf_trimLeft : ∀ (l : Str), wordsOf (trimLeft l) = wordsOf l
  | [] => rfl
  | c :: rest => by
    by_cases h : isSpace c
    · rw [trimLeft, List.dropWhile_cons, if_pos h, wordsOf_cons_space c rest h]
      exact wordsOf_trimLeft rest
    · rw [trimLeft, List.dropWhile_cons, if_neg h]

/-- `rdropWhile` and `rtakeWhile` decompose a list. -/
theorem rdropWhile_append_rtakeWhile (p : Char → Bool) (l : Str) :
    l.rdropWhile p ++ l.rtakeWhile p = l := by
  rw [List.rdropWhile, List.rtakeWhile, ← List.reverse_append,
    List.takeWhile_append_dropWhile, List.reverse_reverse]

/-- Python `str.strip()` does not change the words. -/
theorem wordsOf_strip (l : Str) : wordsOf (strip l) = wordsOf l := by
  rw [strip]
  have hdecomp := rdropWhile_append_rtakeWhile isSpace (trimLeft l)
  have hsp : ∀ c ∈ (trimLeft l).rtakeWhile isSpace, isSpace c := by
    intro c hc
    exact List.mem_rtakeWhile_imp hc
  calc wordsOf ((trimLeft l).rdropWhile isSpace)
      = wordsOf ((trimLeft l).rdropWhile isSpace ++ (trimLeft l).rtakeWhile isSpace) :=
        (wordsOf_append_spaces _ _ hsp).symm
    _ = wordsOf (trimLeft l) := by rw [hdecomp]
    _ = wordsOf l := wordsOf_trimLeft l

/-! ## Sentence-splitting lemmas -/

theorem sentSplit_nil : sentSplit [] = [[]] := by
  simp [sentSplit]

theorem sentSplit_cons (c : Char) (rest : Str) :
    sentSplit (c :: rest) =
      if (isSentEnd c && match rest with | x :: _ => isSpace x | [] => false) then
        [c] :: sentSplit (rest.dropWhile isSpace)
      else
        match sentSplit rest with
        | p :: ps => (c :: p) :: ps
        | [] => [[c]] := by
  rw [sentSplit.eq_def]
  rfl

theorem sentSplit_ne_nil (l : Str) : sentSplit l ≠ [] := by
  cases l with
  | nil => rw [sentSplit_nil]; exact List.cons_ne_nil _ _
  | cons c rest =>
    rw [sentSplit_cons]
    split
    · exact List.cons_ne_nil _ _
    · split
      · exact List.cons_ne_nil _ _
      · exact List.cons_ne_nil _ _

theorem sentSplit_head_cons (c : Char) (rest : Str) :
    ∃ q ps, sentSplit (c :: rest) = (c :: q) :: ps := by
  rw [sentSplit_cons]
  split
  · exact ⟨[], _, rfl⟩
  · split
    · exact ⟨_, _, rfl⟩
    · exact ⟨[], [], rfl⟩

theorem sentEnd_not_space (c : Char) (h : isSentEnd c) : ¬ isSpace c := by
  have h2 : (c = '.' ∨ c = '!') ∨ c = '?' := by
    simpa [isSentEnd, Bool.or_eq_true, beq_iff_eq] using h
  rcases h2 with (rfl | rfl) | rfl <;> decide

/-- Consing a non-space char onto a string whose head is a space (or which is
empty) creates the singleton word `[c]`. -/
theorem wordsOf_cons_word_break (c : Char) (a : Str) (hc : ¬ isSpace c)
    (ha : ∀ x, a.head? = some x → isSpace x) :
    wordsOf (c :: a) = [c] :: wordsOf a := by
  rw [wordsOf_cons_nonspace c a hc]
  cases a with
  | nil => simp
  | cons x a' =>
    have hx : isSpace x := ha x rfl
    simp [List.takeWhile_cons, List.dropWhile_cons, hx]

/-- Consing a non-space char onto a string whose head is non-space extends the
first word. -/
theorem wordsOf_cons_word_extend (c : Char) (a : Str) (x : Char)
    (hc : ¬ isSpace c) (hx : a.head? = some x) (hxs : ¬ isSpace x) :
    ∃ w ws, wordsOf a = w :: ws ∧ wordsOf (c :: a) = (c :: w) :: ws := by
  cases a with
  | nil => exact absurd hx (by simp)
  | cons y a' =>
    have hxy : y = x := by simpa using hx
    subst hxy
    refine ⟨y :: a'.takeWhile (fun z => !isSpace z),
      wordsOf (a'.dropWhile fun z => !isSpace z), ?_, ?_⟩
    · exact wordsOf_cons_nonspace y a' hxs
    · rw [wordsOf_cons_nonspace c (y :: a') hc]
      simp [List.takeWhile_cons, List.dropWhile_cons, hxs]

/-- Sentence splitting neither loses nor duplicates words. -/
theorem wordsOf_sentSplit : ∀ (l : Str),
    ((sentSplit l).map wordsOf).flatten = wordsOf l
  | [] => by rw [sentSplit_nil]; simp [wordsOf_nil]
  | c :: rest => by
    rw [sentSplit_cons]
    split
    · next hb =>
      have hc : isSentEnd c := (Bool.and_eq_true _ _ |>.mp hb).1
      have hcs : ¬ isSpace c := sentEnd_not_space c hc
      have hrest : ∀ x, rest.head? = some x → isSpace x := by
        intro x hx
        cases rest with
        | nil => exact absurd hx (by simp)
        | cons y r2 =>
          have hy : isSpace y := (Bool.and_eq_true _ _ |>.mp hb).2
          have : y = x := by simpa using hx
          rw [← this]; exact hy
      rw [List.map_cons, List.flatten_cons,
        wordsOf_sentSplit (rest.dropWhile isSpace),
        wordsOf_cons_word_break c rest hcs hrest,
        wordsOf_single [c] (List.cons_ne_nil c [])
          (by intro z hz; rcases List.mem_singleton.mp hz with rfl; exact hcs)]
      have : wordsOf (rest.dropWhile isSpace) = wordsOf rest := wordsOf_trimLeft rest
      rw [this, List.singleton_append]
    · next hb =>
      cases hsp : sentSplit rest with
      | nil => exact absurd hsp (sentSplit_ne_nil rest)
      | cons p ps =>
        have IH : wordsOf p ++ (ps.map wordsOf).flatten = wordsOf rest := by
          have h0 := wordsOf_sentSplit rest
          rw [hsp, List.map_cons, List.flatten_cons] at h0
          exact h0
        simp only [List.map_cons, List.flatten_cons]
        by_cases hc : isSpace c
        · rw [wordsOf_cons_space c p hc, wordsOf_cons_space c rest hc, IH]
        · cases rest with
          | nil =>
            rw [sentSplit_nil] at hsp
            injection hsp with h1 h2
            subst h1
            subst h2
            simp
          | cons x rest2 =>
            obtain ⟨q, ps', hq⟩ := sentSplit_head_cons x rest2
            rw [hsp] at hq
            have hpq : p = x :: q := ((List.cons.injEq _ _ _ _).mp hq).1
            by_cases hx : isSpace x
            · rw [wordsOf_cons_word_break c (x :: rest2) hc
                (by intro z hz; have : x = z := by simpa using hz
                    rw [← this]; exact hx),
                wordsOf_cons_word_break c p hc
                (by intro z hz; rw [hpq] at hz
                    have : x = z := by simpa using hz
                    rw [← this]; exact hx)]
              rw [List.cons_append, IH]
            · obtain ⟨w, ws, hw1, hw2⟩ := wordsOf_cons_word_extend c (x :: rest2) x
                hc rfl hx
              obtain ⟨w', ws', hw1', hw2'⟩ := wordsOf_cons_word_extend c p x
                hc (by rw [hpq]; rfl) hx
              rw [hw1, hw1'] at IH
              rw [List.cons_append] at IH
              have hww : w' = w := ((List.cons.injEq _ _ _ _).mp IH).1
              have hwsws : ws' ++ (ps.map wordsOf).flatten = ws :=
                ((List.cons.injEq _ _ _ _).mp IH).2
              rw [hw2, hw2', List.cons_append, hww, hwsws]
termination_by l => l.length
decreasing_by
  · exact Nat.lt_succ_self _
  · exact Nat.lt_succ_of_le (lenDropWhileLe isSpace rest)

/-- Stripping and dropping empty parts does not change the total word
content. -/
theorem wordsOf_filter_strip : ∀ (parts : List Str),
    ((((parts.map strip).filter (fun s => !s.isEmpty)).map wordsOf)).flatten =
      ((parts.map wordsOf)).flatten
  | [] => rfl
  | p :: parts' => by
    by_cases hp : (strip p).isEmpty
    · have hwp : wordsOf p = [] := by
        have h0 : strip p = [] := by simpa [List.isEmpty_iff] using hp
        rw [← wordsOf_strip p, h0, wordsOf_nil]
      simp only [List.map_cons, List.filter_cons, hp, Bool.not_true,
        List.flatten_cons, hwp, List.nil_append]
      exact wordsOf_filter_strip parts'
    · simp only [List.map_cons, List.filter_cons]
      rw [if_pos (by simpa using hp)]
      simp only [List.map_cons, List.flatten_cons]
      rw [wordsOf_strip p, wordsOf_filter_strip parts']

/-- `split_into_sentences` neither loses nor duplicates words. -/
theorem wordsOf_splitIntoSentences (t : Str) :
    ((splitIntoSentences t).map wordsOf).flatten = wordsOf t := by
  rw [splitIntoSentences, wordsOf_filter_strip, wordsOf_sentSplit]

/-! ## Segment-list invariants

`segWords` is the total word content of a segment list (claim C5); `TimesOk`
is the timeline invariant (claim C6): intervals chain contiguously, the first
starts at `0`, and every segment's stored `duration` is consistent with its
text and endpoints.  `IdxSeq` records that indices are `1, 2, …, n`, which is
what `_split_segments`' index lookup relies on. -/

def segWords (segs : List Segment) : List Str :=
  (segs.map (fun s => wordsOf s.text)).flatten

def stepOk (a b : Segment) : Prop := b.start_time = a.end_time

def durOk (s : Segment) : Prop :=
  s.end_time = s.start_time + s.duration ∧ s.duration = estimateDuration s.text

def TimesOk (segs : List Segment) : Prop :=
  List.Chain' stepOk segs ∧ (∀ s, segs.head? = some s → s.start_time = 0) ∧
    ∀ s ∈ segs, durOk s

def IdxSeq (segs : List Segment) : Prop :=
  ∀ (k : ℕ) (h : k < segs.length), (segs.get ⟨k, h⟩).index = (k : ℚ) + 1

theorem estimateDuration_append_space (a b : Str) :
    estimateDuration (a ++ ' ' :: b) = estimateDuration a + estimateDuration b := by
  rw [estimateDuration, estimateDuration, estimateDuration, wordsOf_append_space,
    List.length_append]
  push_cast
  ring

theorem estimateDuration_strip (t : Str) :
    estimateDuration (strip t) = estimateDuration t := by
  rw [estimateDuration, estimateDuration, wordsOf_strip]

theorem estimateDuration_nonneg (t : Str) : 0 ≤ estimateDuration t := by
  rw [estimateDuration]
  positivity

/-- The full loop invariant of `create_initial_segments`. -/
def InitInv (segs : List Segment) (cur : Str) (curDur start : ℚ) : Prop :=
  List.Chain' stepOk segs ∧
  (∀ s, segs.head? = some s → s.start_time = 0) ∧
  (∀ s ∈ segs, durOk s) ∧
  (match segs.getLast? with | some t => start = t.end_time | none => start = 0) ∧
  (cur ≠ [] → curDur = estimateDuration cur) ∧
  IdxSeq segs

theorem closeSegment_durOk (segs : List Segment) (cur : Str) (curDur start : ℚ)
    (h : curDur = estimateDuration cur) :
    durOk (closeSegment segs cur curDur start) := by
  refine ⟨rfl, ?_⟩
  show curDur = estimateDuration (strip cur)
  rw [estimateDuration_strip, h]

theorem InitInv_close (segs : List Segment) (cur : Str) (curDur start : ℚ)
    (hinv : InitInv segs cur curDur start) (hcur : cur ≠ []) :
    InitInv (segs ++ [closeSegment segs cur curDur start]) [] 0 (start + curDur) := by
  obtain ⟨hchain, hhead, hdur, hlast, hcurdur, hidx⟩ := hinv
  refine ⟨?_, ?_, ?_, ?_, ?_, ?_⟩
  · rw [List.chain'_append]
    refine ⟨hchain, List.chain'_singleton _, ?_⟩
    intro x hx y hy
    have hy' : closeSegment segs cur curDur start = y := by simpa using hy
    rw [← hy']
    show start = x.end_time
    cases hgl : segs.getLast? with
    | none => exact absurd (hgl ▸ hx) (by simp)
    | some t =>
      have hxt : t = x := by rw [hgl] at hx; simpa using hx
      rw [hgl] at hlast
      rw [← hxt]
      exact hlast
  · intro s hs
    cases segs with
    | nil =>
      have hs' : closeSegment [] cur curDur start = s := by simpa using hs
      rw [← hs']
      show start = 0
      simpa using hlast
    | cons a l =>
      have hs' : a = s := by simpa using hs
      rw [← hs']
      exact hhead a rfl
  · intro s hs
    rcases List.mem_append.mp hs with hmem | hmem
    · exact hdur s hmem
    · have hs' : s = closeSegment segs cur curDur start := by simpa using hmem
      rw [hs']
      exact closeSegment_durOk segs cur curDur start (hcurdur hcur)
  · rw [List.getLast?_concat]
    rfl
  · intro h
    exact absurd rfl h
  · intro k hk
    rw [List.length_append, List.length_singleton] at hk
    by_cases hlt : k < segs.length
    · have : (segs ++ [closeSegment segs cur curDur start]).get ⟨k, by
        rw [List.length_append, List.length_singleton]; omega⟩ =
          segs.get ⟨k, hlt⟩ := by
        simp [List.getElem_append_left hlt]
      rw [this]
      exact hidx k hlt
    · have hk' : k = segs.length := by omega
      subst hk'
      have : (segs ++ [closeSegment segs cur curDur start]).get ⟨segs.length, by
        rw [List.length_append, List.length_singleton]; omega⟩ =
          closeSegment segs cur curDur start := by
        simp
      rw [this]
      show (segs.length : ℚ) + 1 = (segs.length : ℚ) + 1
      rfl

theorem initLoop_inv (td : ℚ) : ∀ (sents : List Str) (segs : List Segment)
    (cur : Str) (curDur start : ℚ), InitInv segs cur curDur start →
    (∀ t ∈ sents, t ≠ []) →
    InitInv (initLoop td sents segs cur curDur start).1
      (initLoop td sents segs cur curDur start).2.1
      (initLoop td sents segs cur curDur start).2.2.1
      (initLoop td sents segs cur curDur start).2.2.2
  | [], segs, cur, curDur, start, hinv, _ => hinv
  | s :: rest, segs, cur, curDur, start, hinv, hne => by
    have hsne : s ≠ [] := hne s (List.mem_cons_self s rest)
    have hrest : ∀ t ∈ rest, t ≠ [] := fun t ht => hne t (List.mem_cons_of_mem s ht)
    rw [initLoop]
    by_cases h1 : (!cur.isEmpty && decide (curDur + estimateDuration s > td)) = true
    · rw [if_pos h1]
      have hcur : cur ≠ [] := by
        have := (Bool.and_eq_true _ _ |>.mp h1).1
        simpa [List.isEmpty_iff] using this
      have hinv2 := InitInv_close segs cur curDur start hinv hcur
      obtain ⟨hc, hh, hd, hl, _, hi⟩ := hinv2
      exact initLoop_inv td rest _ s (estimateDuration s) (start + curDur)
        ⟨hc, hh, hd, hl, fun _ => rfl, hi⟩ hrest
    · rw [if_neg h1]
      by_cases h2 : (!cur.isEmpty) = true
      · rw [if_pos h2]
        have hcur : cur ≠ [] := by simpa [List.isEmpty_iff] using h2
        obtain ⟨hc, hh, hd, hl, hcd, hi⟩ := hinv
        refine initLoop_inv td rest segs (cur ++ ' ' :: s) _ start
          ⟨hc, hh, hd, hl, ?_, hi⟩ hrest
        intro _
        rw [estimateDuration_append_space, hcd hcur]
      · rw [if_neg h2]
        obtain ⟨hc, hh, hd, hl, _, hi⟩ := hinv
        exact initLoop_inv td rest segs s (estimateDuration s) start
          ⟨hc, hh, hd, hl, fun _ => rfl, hi⟩ hrest

theorem segWords_append (a b : List Segment) :
    segWords (a ++ b) = segWords a ++ segWords b := by
  rw [segWords, segWords, segWords, List.map_append, List.flatten_append]

theorem segWords_concat (segs : List Segment) (s : Segment) :
    segWords (segs ++ [s]) = segWords segs ++ wordsOf s.text := by
  simp [segWords_append, segWords]

theorem initLoop_words (td : ℚ) : ∀ (sents : List Str) (segs : List Segment)
    (cur : Str) (curDur start : ℚ),
    segWords (initLoop td sents segs cur curDur start).1 ++
      wordsOf (initLoop td sents segs cur curDur start).2.1 =
    segWords segs ++ wordsOf cur ++ (sents.map wordsOf).flatten
  | [], segs, cur, curDur, start => by
    rw [initLoop]
    simp
  | s :: rest, segs, cur, curDur, start => by
    rw [initLoop]
    by_cases h1 : (!cur.isEmpty && decide (curDur + estimateDuration s > td)) = true
    · rw [if_pos h1]
      rw [initLoop_words td rest _ s (estimateDuration s) (start + curDur)]
      rw [segWords_concat]
      show segWords segs ++ wordsOf (strip cur) ++ wordsOf s ++ _ = _
      rw [wordsOf_strip]
      simp [List.append_assoc]
    · rw [if_neg h1]
      by_cases h2 : (!cur.isEmpty) = true
      · rw [if_pos h2]
        rw [initLoop_words td rest segs (cur ++ ' ' :: s) _ start,
          wordsOf_append_space]
        simp [List.append_assoc]
      · rw [if_neg h2]
        have hcur : cur = [] := by
          simpa [List.isEmpty_iff] using h2
        subst hcur
        rw [initLoop_words td rest segs s (estimateDuration s) start, wordsOf_nil]
        simp

theorem segWords_nil : segWords [] = [] := rfl

/-- `create_initial_segments` preserves the word content of its input. -/
theorem createInitialSegments_words (td : ℚ) (t : Str) :
    segWords (createInitialSegments td t) = wordsOf t := by
  have hw := initLoop_words td (splitIntoSentences t) [] [] 0 0
  rw [wordsOf_splitIntoSentences, segWords_nil, wordsOf_nil, List.append_nil,
    List.nil_append] at hw
  simp only [createInitialSegments]
  generalize hout : initLoop td (splitIntoSentences t) [] [] 0 0 = out at hw ⊢
  obtain ⟨segs, cur, curDur, start⟩ := out
  dsimp only at hw ⊢
  by_cases hc : (!cur.isEmpty) = true
  · rw [if_pos hc, segWords_concat]
    show segWords segs ++ wordsOf (strip cur) = wordsOf t
    rw [wordsOf_strip]
    exact hw
  · rw [if_neg hc]
    have hcur : cur = [] := by simpa [List.isEmpty_iff] using hc
    subst hcur
    rw [wordsOf_nil, List.append_nil] at hw
    exact hw

/-- `create_initial_segments` establishes the timeline invariant and the
`1..n` index sequence. -/
theorem createInitialSegments_inv (td : ℚ) (t : Str) :
    TimesOk (createInitialSegments td t) ∧ IdxSeq (createInitialSegments td t) := by
  have hsent : ∀ x ∈ splitIntoSentences t, x ≠ [] := by
    intro x hx
    rw [splitIntoSentences] at hx
    have := List.of_mem_filter hx
    simpa [List.isEmpty_iff] using this
  have hinv := initLoop_inv td (splitIntoSentences t) [] [] 0 0
    ⟨List.chain'_nil, by simp, by simp, by simp, fun h => absurd rfl h, by
      intro k hk; simp at hk⟩ hsent
  simp only [createInitialSegments]
  generalize hout : initLoop td (splitIntoSentences t) [] [] 0 0 = out at hinv ⊢
  obtain ⟨segs, cur, curDur, start⟩ := out
  dsimp only at hinv ⊢
  obtain ⟨hc, hh, hd, hl, hcd, hi⟩ := hinv
  by_cases hce : (!cur.isEmpty) = true
  · rw [if_pos hce]
    have hcur : cur ≠ [] := by simpa [List.isEmpty_iff] using hce
    have h2 := InitInv_close segs cur curDur start ⟨hc, hh, hd, hl, hcd, hi⟩ hcur
    exact ⟨⟨h2.1, h2.2.1, h2.2.2.1⟩, h2.2.2.2.2.2⟩
  · rw [if_neg hce]
    exact ⟨⟨hc, hh, hd⟩, hi⟩

/-! ## Split-phase lemmas -/

theorem find?_append_some {p : Segment → Bool} :
    ∀ (l m : List Segment) (x : Segment), l.find? p = some x →
      (l ++ m).find? p = some x
  | [], _, _, h => by simp [List.find?] at h
  | a :: l', m, x, h => by
    by_cases ha : p a
    · rw [List.find?_cons_of_pos _ ha] at h
      rw [List.cons_append, List.find?_cons_of_pos _ ha]
      exact h
    · rw [List.find?_cons_of_neg _ ha] at h
      rw [List.cons_append, List.find?_cons_of_neg _ ha]
      exact find?_append_some l' m x h

theorem find?_append_none {p : Segment → Bool} :
    ∀ (l m : List Segment), l.find? p = none → (l ++ m).find? p = m.find? p
  | [], _, _ => rfl
  | a :: l', m, h => by
    by_cases ha : p a
    · rw [List.find?_cons_of_pos _ ha] at h
      exact absurd h (by simp)
    · rw [List.find?_cons_of_neg _ ha] at h
      rw [List.cons_append, List.find?_cons_of_neg _ ha]
      exact find?_append_none l' m h

/-- A successful `find?` decomposes the list, and `findIdx` points at the hit. -/
theorem find_decomp {p : Segment → Bool} :
    ∀ (l : List Segment) (s : Segment), l.find? p = some s →
      ∃ l1 l2, l = l1 ++ s :: l2 ∧ (∀ t ∈ l1, ¬ p t) ∧ l.findIdx p = l1.length
  | [], s, h => by simp [List.find?] at h
  | a :: l', s, h => by
    by_cases ha : p a
    · rw [List.find?_cons_of_pos _ ha] at h
      have hs : a = s := by simpa using h
      subst hs
      exact ⟨[], l', rfl, by simp, by simp [List.findIdx_cons, ha]⟩
    · rw [List.find?_cons_of_neg _ ha] at h
      obtain ⟨l1, l2, hdec, hnone, hidx⟩ := find_decomp l' s h
      refine ⟨a :: l1, l2, by rw [hdec]; rfl, ?_, ?_⟩
      · intro t ht
        rcases List.mem_cons.mp ht with rfl | ht'
        · exact fun hc => ha hc
        · exact hnone t ht'
      · simp [List.findIdx_cons, ha, hidx]

theorem set_insertIdx_decomp :
    ∀ (l1 l2 : List Segment) (s a b : Segment),
      ((l1 ++ s :: l2).set l1.length a).insertIdx (l1.length + 1) b =
        l1 ++ a :: b :: l2
  | [], l2, s, a, b => by
    simp [List.insertIdx]
  | c :: l1', l2, s, a, b => by
    have ih := set_insertIdx_decomp l1' l2 s a b
    simp only [List.cons_append, List.length_cons, List.set_cons_succ,
      List.insertIdx_succ_cons, ih]

/-- Under the lookup invariant, one Python split-loop iteration replaces the
found segment by its two halves in place. -/
theorem doSplit_decomp (acc : List Segment) (s : Segment)
    (h : acc.find? (fun t => decide (t.index = s.index)) = some s) :
    ∃ l1 l2, acc = l1 ++ s :: l2 ∧ (∀ t ∈ l1, t.index ≠ s.index) ∧
      doSplit acc s = l1 ++ (splitHalves s).1 :: (splitHalves s).2 :: l2 := by
  obtain ⟨l1, l2, hdec, hnone, hidx⟩ := find_decomp acc s h
  refine ⟨l1, l2, hdec, ?_, ?_⟩
  · intro t ht
    have := hnone t ht
    simpa using this
  · rw [doSplit, hidx, hdec, set_insertIdx_decomp]

theorem splitHalves_words (s : Segment) :
    wordsOf (splitHalves s).1.text ++ wordsOf (splitHalves s).2.text =
      wordsOf s.text := by
  rw [splitHalves]
  show wordsOf (joinWords ((wordsOf s.text).take ((wordsOf s.text).length / 2))) ++
    wordsOf (joinWords ((wordsOf s.text).drop ((wordsOf s.text).length / 2))) =
    wordsOf s.text
  have hok := wordsOf_words_ok s.text
  rw [wordsOf_joinWords _ (fun w hw => hok w (List.mem_of_mem_take hw)),
    wordsOf_joinWords _ (fun w hw => hok w (List.mem_of_mem_drop hw)),
    List.take_append_drop]

theorem estimateDuration_joinWords (ws0 : List Str)
    (h : ∀ w ∈ ws0, w ≠ [] ∧ ∀ c ∈ w, ¬ isSpace c) :
    estimateDuration (joinWords ws0) = (ws0.length : ℚ) / (5/2) := by
  rw [estimateDuration, wordsOf_joinWords ws0 h]

theorem splitHalves_first_durOk (s : Segment) : durOk (splitHalves s).1 :=
  ⟨rfl, rfl⟩

theorem splitHalves_stepOk (s : Segment) :
    stepOk (splitHalves s).1 (splitHalves s).2 := rfl

theorem splitHalves_second_durOk (s : Segment) (hs : durOk s) :
    durOk (splitHalves s).2 := by
  constructor
  · have hok := wordsOf_words_ok s.text
    have hd1 : (splitHalves s).2.start_time = s.start_time +
        estimateDuration (joinWords ((wordsOf s.text).take
          ((wordsOf s.text).length / 2))) := rfl
    have hd2 : (splitHalves s).2.duration =
        estimateDuration (joinWords ((wordsOf s.text).drop
          ((wordsOf s.text).length / 2))) := rfl
    have hd3 : (splitHalves s).2.end_time = s.end_time := rfl
    rw [hd1, hd2, hd3, hs.1, hs.2, estimateDuration,
      estimateDuration_joinWords _ (fun w hw => hok w (List.mem_of_mem_take hw)),
      estimateDuration_joinWords _ (fun w hw => hok w (List.mem_of_mem_drop hw))]
    have hlen : ((wordsOf s.text).take ((wordsOf s.text).length / 2)).length +
        ((wordsOf s.text).drop ((wordsOf s.text).length / 2)).length =
        (wordsOf s.text).length := by
      rw [← List.length_append, List.take_append_drop]
    have hcast : (((wordsOf s.text).take ((wordsOf s.text).length / 2)).length : ℚ) +
        (((wordsOf s.text).drop ((wordsOf s.text).length / 2)).length : ℚ) =
        ((wordsOf s.text).length : ℚ) := by
      rw [← Nat.cast_add, hlen]
    rw [add_assoc, div_add_div_same, hcast]
  · rfl

/-- Integer-valued rational (the form of every index created by
`create_initial_segments` and `renumber`). -/
def IsIntIdx (q : ℚ) : Prop := ∃ z : ℤ, q = (z : ℚ)

theorem intIdx_ne_add_half {q r : ℚ} (hq : IsIntIdx q) (hr : IsIntIdx r) :
    q ≠ r + 1/2 := by
  intro h
  obtain ⟨z, rfl⟩ := hq
  obtain ⟨w, rfl⟩ := hr
  have h2 : ((2 * (z - w) : ℤ) : ℚ) = ((1 : ℤ) : ℚ) := by
    push_cast
    linarith
  have h3 : (2 * (z - w) : ℤ) = 1 := Int.cast_injective h2
  omega

/-- `find?` for a distinct integer index survives one split. -/
theorem find_pres (l1 l2 : List Segment) (s s' : Segment)
    (hii : IsIntIdx s.index) (hii' : IsIntIdx s'.index)
    (hns : s'.index ≠ s.index)
    (hfind : (l1 ++ s :: l2).find? (fun t => decide (t.index = s'.index)) = some s') :
    (l1 ++ (splitHalves s).1 :: (splitHalves s).2 :: l2).find?
      (fun t => decide (t.index = s'.index)) = some s' := by
  cases hl1 : l1.find? (fun t => decide (t.index = s'.index)) with
  | some x =>
    have h1 := find?_append_some l1 (s :: l2) x hl1
    rw [hfind] at h1
    have hx : x = s' := by simpa using h1.symm
    subst hx
    exact find?_append_some l1 _ x hl1
  | none =>
    have h1 := find?_append_none l1 (s :: l2) hl1
    rw [hfind] at h1
    have hps : (fun t => decide (t.index = s'.index)) s = false := by
      simpa using fun hc => hns hc.symm
    rw [List.find?_cons_of_neg _ (by simpa using hps)] at h1
    rw [find?_append_none l1 _ hl1]
    have hpa : (fun t => decide (t.index = s'.index)) (splitHalves s).1 = false := by
      show decide ((splitHalves s).1.index = s'.index) = false
      have : (splitHalves s).1.index = s.index := rfl
      rw [this]
      simpa using fun hc => hns hc.symm
    have hpb : (fun t => decide (t.index = s'.index)) (splitHalves s).2 = false := by
      show decide ((splitHalves s).2.index = s'.index) = false
      have hb : (splitHalves s).2.index = s.index + 1/2 := rfl
      rw [hb]
      exact decide_eq_false (fun hc => intIdx_ne_add_half hii' hii hc.symm)
    rw [List.find?_cons_of_neg _ (by simpa using hpa),
      List.find?_cons_of_neg _ (by simpa using hpb)]
    exact h1.symm

/-- Replacing one segment by two with the same outer endpoints preserves the
timeline invariant. -/
theorem timesOk_replace_two (l1 l2 : List Segment) (s a b : Segment)
    (ht : TimesOk (l1 ++ s :: l2))
    (ha : a.start_time = s.start_time) (hb : b.end_time = s.end_time)
    (hab : stepOk a b) (hda : durOk a) (hdb : durOk b) :
    TimesOk (l1 ++ a :: b :: l2) := by
  obtain ⟨hchain, hhead, hdur⟩ := ht
  rw [List.chain'_append] at hchain
  obtain ⟨hc1, hc2, hc3⟩ := hchain
  rw [List.chain'_cons'] at hc2
  obtain ⟨hc2h, hc2t⟩ := hc2
  refine ⟨?_, ?_, ?_⟩
  · rw [List.chain'_append]
    refine ⟨hc1, ?_, ?_⟩
    · rw [List.chain'_cons']
      refine ⟨?_, ?_⟩
      · intro y hy
        have hyb : b = y := by simpa using hy
        rw [← hyb]
        exact hab
      · rw [List.chain'_cons']
        refine ⟨?_, hc2t⟩
        intro y hy
        have := hc2h y hy
        show y.start_time = b.end_time
        rw [hb]
        exact this
    · intro x hx y hy
      have hya : a = y := by simpa using hy
      rw [← hya]
      show a.start_time = x.end_time
      rw [ha]
      exact hc3 x hx s (by simp)
  · intro x hx
    cases l1 with
    | nil =>
      have hxa : a = x := by simpa using hx
      rw [← hxa, ha]
      exact hhead s (by simp)
    | cons c l1' =>
      have hxc : c = x := by simpa using hx
      rw [← hxc]
      exact hhead c (by simp)
  · intro x hx
    rcases List.mem_append.mp hx with hm | hm
    · exact hdur x (List.mem_append.mpr (Or.inl hm))
    · rcases List.mem_cons.mp hm with rfl | hm2
      · exact hda
      · rcases List.mem_cons.mp hm2 with rfl | hm3
        · exact hdb
        · exact hdur x (List.mem_append.mpr (Or.inr (List.mem_cons_of_mem s hm3)))

/-- Replacing an adjacent pair by one segment with the same outer endpoints
preserves the timeline invariant. -/
theorem timesOk_replace_one (l1 l2 : List Segment) (a b m : Segment)
    (ht : TimesOk (l1 ++ a :: b :: l2))
    (hm1 : m.start_time = a.start_time) (hm2 : m.end_time = b.end_time)
    (hdm : durOk m) :
    TimesOk (l1 ++ m :: l2) := by
  obtain ⟨hchain, hhead, hdur⟩ := ht
  rw [List.chain'_append] at hchain
  obtain ⟨hc1, hc2, hc3⟩ := hchain
  rw [List.chain'_cons'] at hc2
  obtain ⟨_, hc2t⟩ := hc2
  rw [List.chain'_cons'] at hc2t
  obtain ⟨hc2th, hc2tt⟩ := hc2t
  refine ⟨?_, ?_, ?_⟩
  · rw [List.chain'_append]
    refine ⟨hc1, ?_, ?_⟩
    · rw [List.chain'_cons']
      refine ⟨?_, hc2tt⟩
      intro y hy
      have := hc2th y hy
      show y.start_time = m.end_time
      rw [hm2]
      exact this
    · intro x hx y hy
      have hym : m = y := by simpa using hy
      rw [← hym]
      show m.start_time = x.end_time
      rw [hm1]
      exact hc3 x hx a (by simp)
  · intro x hx
    cases l1 with
    | nil =>
      have hxm : m = x := by simpa using hx
      rw [← hxm, hm1]
      exact hhead a (by simp)
    | cons c l1' =>
      have hxc : c = x := by simpa using hx
      rw [← hxc]
      exact hhead c (by simp)
  · intro x hx
    rcases List.mem_append.mp hx with hm' | hm'
    · exact hdur x (List.mem_append.mpr (Or.inl hm'))
    · rcases List.mem_cons.mp hm' with rfl | hm2
      · exact hdm
      · exact hdur x (List.mem_append.mpr (Or.inr
          (List.mem_cons_of_mem a (List.mem_cons_of_mem b hm2))))

theorem segWords_decomp (l1 l2 : List Segment) (xs : List Segment) :
    segWords (l1 ++ xs ++ l2) = segWords l1 ++ segWords xs ++ segWords l2 := by
  rw [segWords_append, segWords_append]

/-- Master induction for the `_split_segments` loop: under the lookup
invariant, each iteration grows the list by one, preserves the timeline
invariant and preserves the word content. -/
theorem splitLoop_master : ∀ (toSplit acc : List Segment),
    (∀ s' ∈ toSplit, IsIntIdx s'.index ∧
      acc.find? (fun t => decide (t.index = s'.index)) = some s') →
    ((toSplit.map Segment.index).Pairwise (· ≠ ·)) →
    TimesOk acc →
    TimesOk (toSplit.foldl doSplit acc) ∧
      segWords (toSplit.foldl doSplit acc) = segWords acc ∧
      (toSplit.foldl doSplit acc).length = acc.length + toSplit.length
  | [], acc, _, _, ht => ⟨ht, rfl, by simp⟩
  | s :: rem, acc, hfind, hpw, ht => by
    obtain ⟨hint, hfs⟩ := hfind s (List.mem_cons_self s rem)
    obtain ⟨l1, l2, hdec, _, hsplit⟩ := doSplit_decomp acc s hfs
    have hsmem : s ∈ acc := by rw [hdec]; exact List.mem_append.mpr (Or.inr (by simp))
    have hds : durOk s := ht.2.2 s hsmem
    have ht2 : TimesOk (doSplit acc s) := by
      rw [hsplit]
      exact timesOk_replace_two l1 l2 s _ _ (hdec ▸ ht) rfl rfl
        (splitHalves_stepOk s) (splitHalves_first_durOk s)
        (splitHalves_second_durOk s hds)
    have hw2 : segWords (doSplit acc s) = segWords acc := by
      rw [hsplit, hdec]
      have e1 : l1 ++ (splitHalves s).1 :: (splitHalves s).2 :: l2 =
          l1 ++ [(splitHalves s).1, (splitHalves s).2] ++ l2 := by simp
      have e2 : l1 ++ s :: l2 = l1 ++ [s] ++ l2 := by simp
      rw [e1, e2, segWords_decomp, segWords_decomp]
      have : segWords [(splitHalves s).1, (splitHalves s).2] = segWords [s] := by
        show wordsOf (splitHalves s).1.text ++ (wordsOf (splitHalves s).2.text ++ []) =
          wordsOf s.text ++ []
        rw [← List.append_assoc, splitHalves_words]
      rw [this]
    have hl2 : (doSplit acc s).length = acc.length + 1 := by
      rw [hsplit, hdec]
      simp
      omega
    have hrem : ∀ s' ∈ rem, IsIntIdx s'.index ∧
        (doSplit acc s).find? (fun t => decide (t.index = s'.index)) = some s' := by
      intro s' hs'
      obtain ⟨hint', hf'⟩ := hfind s' (List.mem_cons_of_mem s hs')
      refine ⟨hint', ?_⟩
      rw [hsplit]
      have hne : s'.index ≠ s.index := by
        have := (List.pairwise_cons.mp hpw).1 s'.index
          (List.mem_map.mpr ⟨s', hs', rfl⟩)
        exact fun hc => this hc.symm
      exact find_pres l1 l2 s s' hint hint' hne (hdec ▸ hf')
    have hpw' : ((rem.map Segment.index).Pairwise (· ≠ ·)) :=
      (List.pairwise_cons.mp (by simpa using hpw)).2
    have hrec := splitLoop_master rem (doSplit acc s) hrem (by simpa using hpw') ht2
    refine ⟨hrec.1, ?_, ?_⟩
    · rw [List.foldl_cons] at *
      rw [hrec.2.1, hw2]
    · rw [List.foldl_cons, hrec.2.2, hl2, List.length_cons]
      omega

theorem segWords_cons (s : Segment) (xs : List Segment) :
    segWords (s :: xs) = wordsOf s.text ++ segWords xs := rfl

theorem segWords_mapIdx : ∀ (f : ℕ → Segment → Segment) (segs : List Segment),
    (∀ i s, (f i s).text = s.text) → segWords (segs.mapIdx f) = segWords segs
  | _, [], _ => rfl
  | f, a :: l, hf => by
    rw [List.mapIdx_cons, segWords_cons, segWords_cons, hf 0 a,
      segWords_mapIdx (fun i s => f (i+1) s) l (fun i s => hf (i+1) s)]

theorem length_renumber (segs : List Segment) :
    (renumber segs).length = segs.length := by
  rw [renumber, List.length_mapIdx]

theorem segWords_renumber (segs : List Segment) :
    segWords (renumber segs) = segWords segs :=
  segWords_mapIdx _ segs (fun _ _ => rfl)

theorem getElem_renumber (segs : List Segment) (i : ℕ)
    (h : i < (renumber segs).length) :
    (renumber segs)[i] =
      { segs.get ⟨i, by rw [length_renumber] at h; exact h⟩ with
        index := (i : ℚ) + 1 } := by
  simp only [renumber] at h ⊢
  exact List.getElem_mapIdx

theorem timesOk_renumber (segs : List Segment) (ht : TimesOk segs) :
    TimesOk (renumber segs) := by
  obtain ⟨hchain, hhead, hdur⟩ := ht
  refine ⟨?_, ?_, ?_⟩
  · rw [List.chain'_iff_get] at hchain ⊢
    intro i h
    rw [length_renumber] at h
    have hstep := hchain i h
    simp only [List.get_eq_getElem] at hstep ⊢
    rw [getElem_renumber, getElem_renumber]
    exact hstep
  · intro s hs
    cases segs with
    | nil => exact absurd hs (by simp [renumber])
    | cons a l =>
      rw [renumber, List.mapIdx_cons] at hs
      have hsa : s = { a with index := (0 : ℚ) + 1 } := by
        have : { a with index := ((0 : ℕ) : ℚ) + 1 } = s := by simpa using hs
        rw [← this]
        norm_num
      rw [hsa]
      show a.start_time = 0
      exact hhead a rfl
  · intro s hs
    obtain ⟨i, hi, hget⟩ := List.mem_iff_getElem.mp hs
    rw [getElem_renumber] at hget
    rw [← hget]
    have hmem : segs.get ⟨i, by rw [length_renumber] at hi; exact hi⟩ ∈ segs :=
      List.get_mem _ _ _
    obtain ⟨h1, h2⟩ := hdur _ hmem
    exact ⟨h1, h2⟩

theorem idxSeq_int (segs : List Segment) (hidx : IdxSeq segs) :
    ∀ s ∈ segs, IsIntIdx s.index := by
  intro s hs
  obtain ⟨⟨k, hk⟩, hget⟩ := List.mem_iff_get.mp hs
  rw [← hget, hidx k hk]
  exact ⟨(k : ℤ) + 1, by push_cast; ring⟩

theorem idxSeq_pairwise (segs : List Segment) (hidx : IdxSeq segs) :
    (segs.map Segment.index).Pairwise (· ≠ ·) := by
  rw [List.pairwise_iff_get]
  intro i j hij
  rw [List.get_map, List.get_map]
  have hi := hidx i.1 (by have := i.2; simpa using this)
  have hj := hidx j.1 (by have := j.2; simpa using this)
  rw [List.get_eq_getElem] at hi hj ⊢
  simp only [List.get_eq_getElem]
  rw [hi, hj]
  intro hc
  have hq : ((i.1 : ℕ) : ℚ) = ((j.1 : ℕ) : ℚ) := by linarith
  have : (i.1 : ℕ) = j.1 := Nat.cast_injective hq
  have hlt : (i.1 : ℕ) < j.1 := hij
  omega

theorem find_self_of_pairwise : ∀ (segs : List Segment),
    ((segs.map Segment.index).Pairwise (· ≠ ·)) → ∀ s' ∈ segs,
      segs.find? (fun t => decide (t.index = s'.index)) = some s'
  | [], _, s', hs' => absurd hs' (List.not_mem_nil s')
  | a :: l, hpw, s', hs' => by
    rw [List.map_cons] at hpw
    rcases List.mem_cons.mp hs' with rfl | hmem
    · rw [List.find?_cons_of_pos _ (by simp)]
    · have hne : a.index ≠ s'.index :=
        (List.pairwise_cons.mp hpw).1 s'.index (List.mem_map.mpr ⟨s', hmem, rfl⟩)
      rw [List.find?_cons_of_neg _ (by simp [hne])]
      exact find_self_of_pairwise l (List.pairwise_cons.mp hpw).2 s' hmem

/-- `_split_segments` preserves the timeline invariant and word content, and
adds exactly `min(needed_splits, len(segments))` segments — each original
segment is split at most once in a single call. -/
theorem splitSegments_props (tc : Int) (segs : List Segment)
    (hidx : IdxSeq segs) (ht : TimesOk segs) :
    TimesOk (splitSegments tc segs) ∧
    segWords (splitSegments tc segs) = segWords segs ∧
    (splitSegments tc segs).length =
      segs.length + (min (tc - (segs.length : Int)) (segs.length : Int)).toNat := by
  have hperm : (segs.mergeSort (fun a b => decide (b.duration ≤ a.duration))).Perm
      segs := List.mergeSort_perm segs _
  have hpwsegs := idxSeq_pairwise segs hidx
  have hpwsorted : ((segs.mergeSort
      (fun a b => decide (b.duration ≤ a.duration))).map Segment.index).Pairwise
      (· ≠ ·) :=
    ((hperm.map Segment.index).pairwise_iff (fun {_ _} h => Ne.symm h)).mpr hpwsegs
  have hfind : ∀ s' ∈ (segs.mergeSort
        (fun a b => decide (b.duration ≤ a.duration))).take
        (min (tc - (segs.length : Int)) (segs.length : Int)).toNat,
      IsIntIdx s'.index ∧
        segs.find? (fun t => decide (t.index = s'.index)) = some s' := by
    intro s' hs'
    have hmem : s' ∈ segs := hperm.subset (List.mem_of_mem_take hs')
    exact ⟨idxSeq_int segs hidx s' hmem,
      find_self_of_pairwise segs hpwsegs s' hmem⟩
  have hpwtake : (((segs.mergeSort
        (fun a b => decide (b.duration ≤ a.duration))).take
        (min (tc - (segs.length : Int)) (segs.length : Int)).toNat).map
        Segment.index).Pairwise (· ≠ ·) := by
    rw [List.map_take]
    exact List.Pairwise.sublist (List.take_sublist _ _) hpwsorted
  have hmaster := splitLoop_master _ segs hfind hpwtake ht
  have hlen : ((segs.mergeSort
      (fun a b => decide (b.duration ≤ a.duration))).take
      (min (tc - (segs.length : Int)) (segs.length : Int)).toNat).length =
      (min (tc - (segs.length : Int)) (segs.length : Int)).toNat := by
    rw [List.length_take, List.length_mergeSort]
    omega
  refine ⟨?_, ?_, ?_⟩
  · rw [splitSegments]
    exact timesOk_renumber _ hmaster.1
  · rw [splitSegments, segWords_renumber]
    exact hmaster.2.1
  · rw [splitSegments, length_renumber, hmaster.2.2, hlen]

/-! ## Merge-phase lemmas -/

theorem findMinIdxAux_bound : ∀ (l : List ℚ) (i best : ℕ) (bv : Option ℚ),
    findMinIdxAux l i best bv = best ∨
      (i ≤ findMinIdxAux l i best bv ∧ findMinIdxAux l i best bv < i + l.length)
  | [], _, _, _ => Or.inl rfl
  | v :: rest, i, best, none => by
    have e : findMinIdxAux (v :: rest) i best none =
        findMinIdxAux rest (i+1) i (some v) := rfl
    rw [e]
    rcases findMinIdxAux_bound rest (i+1) i (some v) with h | ⟨h1, h2⟩
    · right
      rw [h]
      simp only [List.length_cons]
      omega
    · right
      simp only [List.length_cons]
      omega
  | v :: rest, i, best, some b => by
    by_cases hv : v < b
    · have e : findMinIdxAux (v :: rest) i best (some b) =
          findMinIdxAux rest (i+1) i (some v) := by
        rw [findMinIdxAux]
        rw [if_pos hv]
      rw [e]
      rcases findMinIdxAux_bound rest (i+1) i (some v) with h | ⟨h1, h2⟩
      · right
        rw [h]
        simp only [List.length_cons]
        omega
      · right
        simp only [List.length_cons]
        omega
    · have e : findMinIdxAux (v :: rest) i best (some b) =
          findMinIdxAux rest (i+1) best (some b) := by
        rw [findMinIdxAux]
        rw [if_neg hv]
      rw [e]
      rcases findMinIdxAux_bound rest (i+1) best (some b) with h | ⟨h1, h2⟩
      · left
        exact h
      · right
        simp only [List.length_cons]
        omega

theorem bestMergeIdx_lt (segs : List Segment) (h2 : 2 ≤ segs.length) :
    bestMergeIdx segs + 1 < segs.length := by
  have hplen : ((segs.zip segs.tail).map
      (fun p => p.1.duration + p.2.duration)).length = segs.length - 1 := by
    rw [List.length_map, List.length_zip, List.length_tail]
    omega
  rw [bestMergeIdx]
  cases hp : (segs.zip segs.tail).map (fun p => p.1.duration + p.2.duration) with
  | nil =>
    rw [hp] at hplen
    simp at hplen
    omega
  | cons v rest =>
    have e : findMinIdxAux (v :: rest) 0 0 none =
        findMinIdxAux rest 1 0 (some v) := rfl
    rw [e]
    have hrlen : rest.length = segs.length - 2 := by
      rw [hp] at hplen
      simp only [List.length_cons] at hplen
      omega
    rcases findMinIdxAux_bound rest 1 0 (some v) with h | ⟨ha, hb⟩
    · rw [h]
      omega
    · omega

theorem set_cons_decomp : ∀ (l1 l2 : List Segment) (x m : Segment),
    (l1 ++ x :: l2).set l1.length m = l1 ++ m :: l2
  | [], _, _, _ => rfl
  | c :: l1', l2, x, m => by
    simp only [List.cons_append, List.length_cons, List.set_cons_succ,
      set_cons_decomp l1' l2 x m]

theorem eraseIdx_cons_decomp : ∀ (l1 l2 : List Segment) (m b : Segment),
    (l1 ++ m :: b :: l2).eraseIdx (l1.length + 1) = l1 ++ m :: l2
  | [], _, _, _ => rfl
  | c :: l1', l2, m, b => by
    simp only [List.cons_append, List.length_cons, List.eraseIdx_cons_succ,
      eraseIdx_cons_decomp l1' l2 m b]

theorem getElem?_append_cons : ∀ (l1 l2 : List Segment) (x : Segment),
    (l1 ++ x :: l2)[l1.length]? = some x
  | [], _, _ => by simp
  | c :: l1', l2, x => by
    simp only [List.cons_append, List.length_cons, List.getElem?_cons_succ]
    exact getElem?_append_cons l1' l2 x

theorem mergeAt_decomp (l1 l2 : List Segment) (a b : Segment) :
    mergeAt (l1 ++ a :: b :: l2) l1.length = l1 ++ mergedSeg a b :: l2 := by
  have h1 : (l1 ++ a :: b :: l2)[l1.length]? = some a := getElem?_append_cons l1 _ a
  have h2 : (l1 ++ a :: b :: l2)[l1.length + 1]? = some b := by
    have e : l1 ++ a :: b :: l2 = (l1 ++ [a]) ++ b :: l2 := by simp
    have el : (l1 ++ [a]).length = l1.length + 1 := by simp
    rw [e, ← el]
    exact getElem?_append_cons (l1 ++ [a]) l2 b
  rw [mergeAt, h1, h2]
  show ((l1 ++ a :: b :: l2).set l1.length (mergedSeg a b)).eraseIdx (l1.length + 1) =
    l1 ++ mergedSeg a b :: l2
  rw [set_cons_decomp, eraseIdx_cons_decomp]

theorem timesOk_adjacent (l1 l2 : List Segment) (a b : Segment)
    (ht : TimesOk (l1 ++ a :: b :: l2)) : stepOk a b := by
  have hchain := ht.1
  rw [List.chain'_append] at hchain
  have h2 := hchain.2.1
  rw [List.chain'_cons'] at h2
  exact h2.1 b rfl

theorem mergedSeg_durOk (a b : Segment) (hab : stepOk a b)
    (hda : durOk a) (hdb : durOk b) : durOk (mergedSeg a b) := by
  constructor
  · show b.end_time = a.start_time + (a.duration + b.duration)
    rw [hdb.1, hab, hda.1]
    ring
  · show a.duration + b.duration = estimateDuration (a.text ++ ' ' :: b.text)
    rw [estimateDuration_append_space, hda.2, hdb.2]

theorem decomp_two : ∀ (segs : List Segment) (i : ℕ), i + 1 < segs.length →
    ∃ l1 a b l2, segs = l1 ++ a :: b :: l2 ∧ l1.length = i
  | [], i, h => by simp at h
  | [x], i, h => by simp at h
  | x :: y :: rest, 0, _ => ⟨[], x, y, rest, rfl, rfl⟩
  | x :: y :: rest, i+1, h => by
    obtain ⟨l1, a, b, l2, hdec, hlen⟩ := decomp_two (y :: rest) i (by
      simp only [List.length_cons] at h ⊢
      omega)
    exact ⟨x :: l1, a, b, l2, by rw [List.cons_append, ← hdec],
      by simp [hlen]⟩

/-- Master induction for the `_merge_segments` loop. -/
theorem mergeLoop_props : ∀ (n : ℕ) (segs : List Segment), TimesOk segs →
    TimesOk (mergeLoop n segs) ∧ segWords (mergeLoop n segs) = segWords segs ∧
    (mergeLoop n segs).length = segs.length - min n (segs.length - 1)
  | 0, segs, ht => ⟨ht, rfl, by
    show segs.length = segs.length - min 0 (segs.length - 1)
    simp⟩
  | n+1, segs, ht => by
    rw [mergeLoop]
    by_cases hle : segs.length ≤ 1
    · rw [if_pos hle]
      refine ⟨ht, rfl, ?_⟩
      have h0 : segs.length - 1 = 0 := by omega
      rw [h0]
      simp
    · rw [if_neg hle]
      have h2 : 2 ≤ segs.length := by omega
      have hbest := bestMergeIdx_lt segs h2
      obtain ⟨l1, a, b, l2, hdec, hlen1⟩ := decomp_two segs (bestMergeIdx segs) hbest
      have hstep : stepOk a b := timesOk_adjacent l1 l2 a b (hdec ▸ ht)
      have hda : durOk a := ht.2.2 a (by
        rw [hdec]; exact List.mem_append.mpr (Or.inr (by simp)))
      have hdb : durOk b := ht.2.2 b (by
        rw [hdec]; exact List.mem_append.mpr (Or.inr (by simp)))
      have hmdec : mergeAt segs (bestMergeIdx segs) = l1 ++ mergedSeg a b :: l2 := by
        rw [← hlen1]
        conv_lhs => rw [hdec]
        exact mergeAt_decomp l1 l2 a b
      have ht2 : TimesOk (mergeAt segs (bestMergeIdx segs)) := by
        rw [hmdec]
        exact timesOk_replace_one l1 l2 a b (mergedSeg a b) (hdec ▸ ht) rfl rfl
          (mergedSeg_durOk a b hstep hda hdb)
      have hw2 : segWords (mergeAt segs (bestMergeIdx segs)) = segWords segs := by
        rw [hmdec, hdec]
        have e1 : l1 ++ mergedSeg a b :: l2 = l1 ++ [mergedSeg a b] ++ l2 := by simp
        have e2 : l1 ++ a :: b :: l2 = l1 ++ [a, b] ++ l2 := by simp
        rw [e1, e2, segWords_decomp, segWords_decomp]
        have : segWords [mergedSeg a b] = segWords [a, b] := by
          show wordsOf (a.text ++ ' ' :: b.text) ++ [] =
            wordsOf a.text ++ (wordsOf b.text ++ [])
          rw [wordsOf_append_space]
          simp
        rw [this]
      have hl2 : (mergeAt segs (bestMergeIdx segs)).length = segs.length - 1 := by
        rw [hmdec, hdec]
        simp only [List.length_append, List.length_cons]
        omega
      have hrec := mergeLoop_props n (mergeAt segs (bestMergeIdx segs)) ht2
      refine ⟨hrec.1, by rw [hrec.2.1, hw2], ?_⟩
      rw [hrec.2.2, hl2]
      omega

/-- `_merge_segments` preserves the timeline invariant and word content, and
reaches exactly the target count whenever `1 ≤ target < len`. -/
theorem mergeSegments_props (tc : Int) (segs : List Segment) (ht : TimesOk segs) :
    TimesOk (mergeSegments tc segs) ∧
    segWords (mergeSegments tc segs) = segWords segs ∧
    (mergeSegments tc segs).length =
      segs.length - min ((segs.length : Int) - tc).toNat (segs.length - 1) := by
  have h := mergeLoop_props (((segs.length : Int) - tc).toNat) segs ht
  refine ⟨?_, ?_, ?_⟩
  · rw [mergeSegments]
    exact timesOk_renumber _ h.1
  · rw [mergeSegments, segWords_renumber]
    exact h.2.1
  · rw [mergeSegments, length_renumber, h.2.2]

/-! ## Top-level segmenter theorems -/

theorem adjust_props (tc : Int) (segs : List Segment)
    (hidx : IdxSeq segs) (ht : TimesOk segs) :
    TimesOk (adjustToTargetCount tc segs) ∧
    segWords (adjustToTargetCount tc segs) = segWords segs := by
  rw [adjustToTargetCount]
  by_cases h1 : ((segs.length : Int) = tc)
  · rw [if_pos h1]
    exact ⟨ht, rfl⟩
  · rw [if_neg h1]
    by_cases h2 : ((segs.length : Int) < tc)
    · rw [if_pos h2]
      have h := splitSegments_props tc segs hidx ht
      exact ⟨h.1, h.2.1⟩
    · rw [if_neg h2]
      have h := mergeSegments_props tc segs ht
      exact ⟨h.1, h.2.1⟩

theorem adjust_length (tc : Int) (segs : List Segment) (hidx : IdxSeq segs)
    (ht : TimesOk segs) (htc : 1 ≤ tc) (hne : 1 ≤ segs.length) :
    ((adjustToTargetCount tc segs).length : Int) =
      if (segs.length : Int) < tc then min tc (2 * segs.length) else tc := by
  rw [adjustToTargetCount]
  by_cases h1 : ((segs.length : Int) = tc)
  · rw [if_pos h1, if_neg (by omega)]
    exact h1
  · rw [if_neg h1]
    by_cases h2 : ((segs.length : Int) < tc)
    · rw [if_pos h2, if_pos h2]
      have h := (splitSegments_props tc segs hidx ht).2.2
      rw [h]
      omega
    · rw [if_neg h2, if_neg h2]
      have h := (mergeSegments_props tc segs ht).2.2
      rw [h]
      omega

theorem dropWhile_head_not {p : Char → Bool} :
    ∀ (l : Str) (c : Char) (rest : Str), l.dropWhile p = c :: rest → ¬ p c
  | [], _, _, h => by simp at h
  | x :: l', c, rest, h => by
    by_cases hx : p x
    · rw [List.dropWhile_cons, if_pos hx] at h
      exact dropWhile_head_not l' c rest h
    · rw [List.dropWhile_cons, if_neg hx] at h
      have : x = c := (List.cons.injEq _ _ _ _).mp h |>.1
      rw [← this]
      exact hx

/-- A non-empty stripped string starts with a non-whitespace character. -/
theorem strip_head_not_space (l : Str) (c : Char) (rest : Str)
    (h : strip l = c :: rest) : ¬ isSpace c := by
  have hdecomp := rdropWhile_append_rtakeWhile isSpace (trimLeft l)
  rw [strip] at h
  rw [h, List.cons_append] at hdecomp
  exact dropWhile_head_not l c _ hdecomp.symm

theorem splitIntoSentences_ne_nil (t : Str) (c : Char) (rest : Str)
    (ht : t = c :: rest) (hc : ¬ isSpace c) : splitIntoSentences t ≠ [] := by
  subst ht
  obtain ⟨q, ps, hq⟩ := sentSplit_head_cons c rest
  rw [splitIntoSentences, hq, List.map_cons, List.filter_cons]
  have hstrip_ne : ¬ (strip (c :: q)).isEmpty = true := by
    intro hemp
    rw [List.isEmpty_iff] at hemp
    have h1 : trimLeft (c :: q) = c :: q := by
      rw [trimLeft, List.dropWhile_cons, if_neg hc]
    rw [strip, h1] at hemp
    exact hc (List.rdropWhile_eq_nil_iff.mp hemp c (List.mem_cons_self c q))
  rw [if_pos (by simpa using hstrip_ne)]
  exact List.cons_ne_nil _ _

theorem initLoop_ne (td : ℚ) : ∀ (sents : List Str) (segs : List Segment)
    (cur : Str) (curDur start : ℚ),
    (sents ≠ [] ∨ cur ≠ [] ∨ segs ≠ []) → (∀ x ∈ sents, x ≠ []) →
    (initLoop td sents segs cur curDur start).1 ≠ [] ∨
      (initLoop td sents segs cur curDur start).2.1 ≠ []
  | [], _, _, _, _, h, _ => by
    rcases h with h | h | h
    · exact absurd rfl h
    · exact Or.inr h
    · exact Or.inl h
  | s :: rest, segs, cur, curDur, start, _, hne => by
    have hs : s ≠ [] := hne s (List.mem_cons_self s rest)
    have hrest : ∀ x ∈ rest, x ≠ [] := fun x hx => hne x (List.mem_cons_of_mem s hx)
    rw [initLoop]
    by_cases h1 : (!cur.isEmpty && decide (curDur + estimateDuration s > td)) = true
    · rw [if_pos h1]
      exact initLoop_ne td rest _ s _ _ (Or.inr (Or.inl hs)) hrest
    · rw [if_neg h1]
      by_cases h2 : (!cur.isEmpty) = true
      · rw [if_pos h2]
        refine initLoop_ne td rest segs (cur ++ ' ' :: s) _ start
          (Or.inr (Or.inl ?_)) hrest
        simp
      · rw [if_neg h2]
        exact initLoop_ne td rest segs s _ start (Or.inr (Or.inl hs)) hrest

theorem createInitialSegments_ne_nil (td : ℚ) (t : Str)
    (hsent : splitIntoSentences t ≠ []) :
    createInitialSegments td t ≠ [] := by
  have hne : ∀ x ∈ splitIntoSentences t, x ≠ [] := by
    intro x hx
    rw [splitIntoSentences] at hx
    have := List.of_mem_filter hx
    simpa [List.isEmpty_iff] using this
  have h := initLoop_ne td (splitIntoSentences t) [] [] 0 0 (Or.inl hsent) hne
  simp only [createInitialSegments]
  generalize hout : initLoop td (splitIntoSentences t) [] [] 0 0 = out at h ⊢
  obtain ⟨segs, cur, curDur, start⟩ := out
  dsimp only at h ⊢
  by_cases hc : (!cur.isEmpty) = true
  · rw [if_pos hc]
    simp
  · rw [if_neg hc]
    rcases h with h | h
    · exact h
    · exact absurd (by simpa [List.isEmpty_iff] using hc) h

/-- Master theorem for `segment_script` on inputs that are non-empty after
cleaning, with `target_segments ≥ 1`: the call succeeds, its length is the
target when the greedy phase produced at least the target count, and
`min(target, 2·initial)` otherwise, and the result satisfies the timeline
invariant and reproduces the cleaned input's words exactly. -/
theorem segmentScript_ok (text : Str) (tc : Int) (td : ℚ) (htc : 1 ≤ tc)
    (hcne : cleanText text ≠ []) :
    ∃ segs, segmentScript text tc td = .ok segs ∧
      ((segs.length : Int) =
        if ((createInitialSegments td (cleanText text)).length : Int) < tc then
          min tc (2 * (createInitialSegments td (cleanText text)).length)
        else tc) ∧
      TimesOk segs ∧ segWords segs = wordsOf (cleanText text) := by
  obtain ⟨c, rest, hcr⟩ : ∃ c rest, cleanText text = c :: rest := by
    cases h : cleanText text with
    | nil => exact absurd h hcne
    | cons c rest => exact ⟨c, rest, rfl⟩
  have hhead : ¬ isSpace c := strip_head_not_space _ c rest hcr
  have hsent : splitIntoSentences (cleanText text) ≠ [] :=
    splitIntoSentences_ne_nil _ c rest hcr hhead
  have hne1 : createInitialSegments td (cleanText text) ≠ [] :=
    createInitialSegments_ne_nil td _ hsent
  have hlen1 : 1 ≤ (createInitialSegments td (cleanText text)).length :=
    List.length_pos.mpr hne1
  obtain ⟨hto, hidx⟩ := createInitialSegments_inv td (cleanText text)
  have hadj := adjust_props tc _ hidx hto
  have hadjlen := adjust_length tc _ hidx hto htc hlen1
  have hwords := createInitialSegments_words td (cleanText text)
  have hfinal_len : 1 ≤ ((adjustToTargetCount tc
      (createInitialSegments td (cleanText text))).length : Int) := by
    rw [hadjlen]
    by_cases h : ((createInitialSegments td (cleanText text)).length : Int) < tc
    · rw [if_pos h]
      have : (1 : Int) ≤ ((createInitialSegments td (cleanText text)).length : Int) := by
        exact_mod_cast hlen1
      omega
    · rw [if_neg h]
      omega
  have hfinal_ne : ¬ (adjustToTargetCount tc
      (createInitialSegments td (cleanText text))).isEmpty = true := by
    intro hemp
    rw [List.isEmpty_iff] at hemp
    rw [hemp] at hfinal_len
    simp at hfinal_len
  refine ⟨adjustToTargetCount tc (createInitialSegments td (cleanText text)),
    ?_, hadjlen, hadj.1, by rw [hadj.2]; exact hwords⟩
  simp only [segmentScript]
  rw [if_neg hfinal_ne]

/-! ## Concrete evaluation inputs and results -/

/-- The single-sentence input `"Hello world."`. -/
def exC1 : Str := ['H','e','l','l','o',' ','w','o','r','l','d','.']

/-- The one-word input `"Hi."`. -/
def exC6 : Str := ['H','i','.']

theorem cleanText_exC1 : cleanText exC1 = exC1 := by
  simp +decide [cleanText, exC1, collapseWS, removeDelim, punctNorm, punctNormAux,
    wsThenPunct, strip, trimLeft, isSpace, isSentEnd, isClausePunct, dropThrough,
    List.rdropWhile]

theorem initial_exC1 : (createInitialSegments 8 (cleanText exC1)).length = 1 := by
  rw [cleanText_exC1]
  simp +decide [createInitialSegments, initLoop, closeSegment, exC1,
    splitIntoSentences, sentSplit, strip, trimLeft, isSpace, isSentEnd,
    List.rdropWhile]

/-- First segment of `segment_script("Hi.", 2, 8.0)`: the empty first half. -/
def segA : Segment := ⟨1, [], 0, 0, 0, 0⟩

/-- Second segment of `segment_script("Hi.", 2, 8.0)`. -/
def segB : Segment := ⟨2, ['H','i','.'], 2/5, 1, 0, 2/5⟩

theorem segmentScript_exC6_eval :
    segmentScript exC6 2 8 = .ok [segA, segB] := by
  rw [segA, segB]
  simp +decide [segmentScript, exC6, cleanText, collapseWS, removeDelim, punctNorm,
    punctNormAux, wsThenPunct, strip, trimLeft, isSpace, isSentEnd, isClausePunct,
    dropThrough, List.rdropWhile, splitIntoSentences, sentSplit,
    createInitialSegments, initLoop, closeSegment, estimateDuration, wordsOf,
    adjustToTargetCount, splitSegments, mergeSegments, doSplit, splitHalves,
    joinWords, renumber, mergeLoop, mergeAt, bestMergeIdx, findMinIdxAux, mergedSeg,
    List.findIdx_cons, Segment.mk.injEq]
  norm_num

/-! ## Claim C1 -/

/-- C1, as stated, is false: on the single-sentence input `"Hello world."`
(non-empty after cleaning) with `target_segments = 3`, `segment_script`
returns a list of length 2, not 3 — `_split_segments` performs a single pass
that splits each original segment at most once, so one call can at most
double the count and never "repeats until the count matches". -/
theorem c1_counterexample :
    cleanText exC1 ≠ [] ∧ (1 : Int) ≤ 3 ∧
      ∀ segs, segmentScript exC1 3 8 = .ok segs → segs.length ≠ 3 := by
  have hclean : cleanText exC1 ≠ [] := by
    rw [cleanText_exC1]
    exact List.cons_ne_nil _ _
  refine ⟨hclean, by norm_num, ?_⟩
  obtain ⟨segs0, hok, hlen, _, _⟩ := segmentScript_ok exC1 3 8 (by norm_num) hclean
  intro segs hs
  rw [hok] at hs
  have hse : segs0 = segs := by injection hs
  rw [initial_exC1] at hlen
  rw [← hse]
  intro hc
  rw [hc] at hlen
  norm_num at hlen

/-- C1 (amended): for every input that is non-empty after cleaning and every
`target_count ≥ 1`, `segment_script` succeeds, and the returned length is
exactly `target_count` when the greedy phase produced at least `target_count`
segments, and `min(target_count, 2·initial_count)` when it produced fewer —
the single adjustment pass splits each original segment at most once, so one
call can at most double the count. -/
theorem c1_amended_segment_count (text : Str) (tc : Int) (td : ℚ)
    (htc : 1 ≤ tc) (hne : cleanText text ≠ []) :
    ∃ segs, segmentScript text tc td = .ok segs ∧
      ((segs.length : Int) =
        if ((createInitialSegments td (cleanText text)).length : Int) < tc then
          min tc (2 * (createInitialSegments td (cleanText text)).length)
        else tc) := by
  obtain ⟨segs, h1, h2, _, _⟩ := segmentScript_ok text tc td htc hne
  exact ⟨segs, h1, h2⟩

/-- Witness for C1 (amended) at the concrete input `"Hello world."` with
target 3. -/
theorem c1_amended_witness :
    ∃ segs, segmentScript exC1 3 8 = .ok segs ∧
      ((segs.length : Int) =
        if ((createInitialSegments 8 (cleanText exC1)).length : Int) < (3 : Int) then
          min (3 : Int) (2 * ((createInitialSegments 8 (cleanText exC1)).length : Int))
        else (3 : Int)) :=
  c1_amended_segment_count exC1 3 8 (by norm_num)
    (by rw [cleanText_exC1]; exact List.cons_ne_nil _ _)

/-! ## Claim C5 -/

/-- C5: for every input text, concatenating the words of the texts of all
returned segments reproduces the words of the cleaned input exactly — in
order, with no loss and no duplication — through the greedy grouping,
splitting and merging phases. -/
theorem c5_words_roundtrip (text : Str) (tc : Int) (td : ℚ)
    (segs : List Segment) (h : segmentScript text tc td = .ok segs) :
    segWords segs = wordsOf (cleanText text) := by
  have hinv := createInitialSegments_inv td (cleanText text)
  have hadj := adjust_props tc _ hinv.2 hinv.1
  have hwords := createInitialSegments_words td (cleanText text)
  simp only [segmentScript] at h
  by_cases hemp : (adjustToTargetCount tc
      (createInitialSegments td (cleanText text))).isEmpty = true
  · rw [if_pos hemp] at h
    exact absurd h (by simp)
  · rw [if_neg hemp] at h
    have hse : adjustToTargetCount tc (createInitialSegments td (cleanText text)) =
        segs := by injection h
    rw [← hse, hadj.2, hwords]

/-- Witness for C5 at the concrete input `"Hi."` with target 2. -/
theorem c5_witness : segWords [segA, segB] = wordsOf (cleanText exC6) :=
  c5_words_roundtrip exC6 2 8 [segA, segB] segmentScript_exC6_eval

/-! ## Claim C6 -/

/-- C6, as stated, is false: on `segment_script("Hi.", 2, 8.0)` the split of a
one-word segment produces an empty first half with a zero-length interval, so
the returned intervals are neither strictly increasing nor all non-empty
(the first segment has `start_time = end_time = 0 = ` the second segment's
`start_time`). -/
theorem c6_counterexample :
    ∃ segs, segmentScript exC6 2 8 = .ok segs ∧
      ¬ List.Chain' (fun x y => x.start_time < y.start_time) segs ∧
      ¬ (∀ s ∈ segs, s.start_time < s.end_time) := by
  refine ⟨[segA, segB], segmentScript_exC6_eval, ?_, ?_⟩
  · intro hc
    rw [List.chain'_cons] at hc
    have := hc.1
    rw [segA, segB] at this
    norm_num at this
  · intro hc
    have := hc segA (List.mem_cons_self _ _)
    rw [segA] at this
    norm_num at this

/-- C6 (amended): for every list returned by `segment_script`, the intervals
`[start_time, end_time)` are contiguous — each segment's `start_time` equals
the previous segment's `end_time`, the first starting at 0 — and
non-overlapping with `start_time ≤ end_time`; strictness can fail because a
split may produce an empty half with a zero-length interval. -/
theorem c6_amended_contiguity (text : Str) (tc : Int) (td : ℚ)
    (segs : List Segment) (h : segmentScript text tc td = .ok segs) :
    List.Chain' (fun a b => b.start_time = a.end_time) segs ∧
    (∀ s, segs.head? = some s → s.start_time = 0) ∧
    (∀ s ∈ segs, s.start_time ≤ s.end_time) := by
  have hinv := createInitialSegments_inv td (cleanText text)
  have hadj := adjust_props tc _ hinv.2 hinv.1
  simp only [segmentScript] at h
  by_cases hemp : (adjustToTargetCount tc
      (createInitialSegments td (cleanText text))).isEmpty = true
  · rw [if_pos hemp] at h
    exact absurd h (by simp)
  · rw [if_neg hemp] at h
    have hse : adjustToTargetCount tc (createInitialSegments td (cleanText text)) =
        segs := by injection h
    obtain ⟨hchain, hhead, hdur⟩ := hse ▸ hadj.1
    refine ⟨hchain, hhead, ?_⟩
    intro s hs
    obtain ⟨h1, h2⟩ := hdur s hs
    have := estimateDuration_nonneg s.text
    rw [h1]
    linarith [h2 ▸ this]

/-- Witness for C6 (amended) at the concrete input `"Hi."` with target 2. -/
theorem c6_witness :
    List.Chain' (fun a b => b.start_time = a.end_time) [segA, segB] ∧
    (∀ s, ([segA, segB] : List Segment).head? = some s → s.start_time = 0) ∧
    (∀ s ∈ [segA, segB], s.start_time ≤ s.end_time) :=
  c6_amended_contiguity exC6 2 8 [segA, segB] segmentScript_exC6_eval

/-! ## Claim C7 -/

/-- C7: the code, not the claim, is at fault here.  On empty input the final
segment list is empty and `segment_script` reaches
`avg_duration = total_duration / len(final_segments)` (`segmenter.py` line
275) with `len(final_segments) = 0`, raising `ZeroDivisionError` instead of
returning the empty list. -/
theorem c7_empty_input_raises :
    segmentScript [] 38 8 = .error "ZeroDivisionError: division by zero" := by
  simp +decide [segmentScript, cleanText, collapseWS, removeDelim, punctNorm,
    punctNormAux, wsThenPunct, strip, trimLeft, isSpace, dropThrough,
    List.rdropWhile, splitIntoSentences, sentSplit, createInitialSegments,
    initLoop, adjustToTargetCount, splitSegments, mergeSegments, mergeLoop,
    renumber]

/-! ## Pipeline embedding (`src/aiva_cli/core/pipeline.py`)

The `ContentPipeline` state machine.  The external text/image collaborators
(and the per-segment file writes, which never feed back into the state) are
abstracted as per-segment outcome oracles; timestamps (`last_updated`,
`created_at`, `updated_at`) and the `config` dict are dropped because no
claim depends on them.  Python's insertion-ordered `dict` of segment states
is modeled as an association list with unique keys. -/

/-- `PipelineStatus` (`pipeline.py` lines 31-37). -/
inductive PipelineStatus
  | pending | running | completed | failed | paused
deriving Repr, DecidableEq

/-- `SegmentStatus` (`pipeline.py` lines 40-48). -/
inductive SegmentStatus
  | pending | script_generated | segmented | prompts_generated | images_rendered
  | completed | failed
deriving Repr, DecidableEq

/-- `SegmentState` (`pipeline.py` lines 51-61).  `image_path` mirrors the
attribute set dynamically at line 551. -/
structure SegmentState where
  segment_id : String
  status : SegmentStatus
  script_content : Option String
  enhanced_prompts : Option (List String)
  image_paths : Option (List String)
  image_path : Option String
  error_message : Option String
  retry_count : ℕ
deriving Repr, DecidableEq

/-- `PipelineState` (`pipeline.py` lines 64-78). -/
structure PipelineState where
  project_slug : String
  topic : String
  video_type : String
  output_dir : String
  status : PipelineStatus
  segments : List (String × SegmentState)
  total_segments : ℕ
  completed_segments : ℕ
  failed_segments : ℕ
deriving Repr, DecidableEq

/-- `self.state.segments[segment_id]` lookup (`segment_id in self.state.segments`
is `(getSeg …).isSome`). -/
def getSeg (segs : List (String × SegmentState)) (k : String) :
    Option SegmentState :=
  (segs.find? (fun p => p.1 = k)).map Prod.snd

/-- In-place mutation of the segment stored under an existing key. -/
def updateSeg (segs : List (String × SegmentState)) (k : String)
    (f : SegmentState → SegmentState) : List (String × SegmentState) :=
  segs.map (fun p => if p.1 = k then (p.1, f p.2) else p)

/-- Outcome of one `prompt_gen` agent call in `_generate_segment_scripts`
(`pipeline.py` lines 439-450): a failed `AgentResult`, a completed result with
no enhanced prompts, a completed result with a first enhanced prompt, or an
exception escaping anywhere in the loop body. -/
inductive PromptOutcome
  | resultFailed
  | noPrompts
  | ok (prompt : String)
  | raises (msg : String)
deriving Repr, DecidableEq

/-- Outcome of one `image_render` agent call in `_generate_segment_images`
(`pipeline.py` lines 538-560): a failed `AgentResult`; a completed result
whose first generated image reports success, carrying the image path and
whether the file exists (the `Path(image_path).exists()` check); a completed
result with no successful image; or an exception. -/
inductive ImageOutcome
  | resultFailed
  | okImage (path : String) (pathOk : Bool)
  | okNoSuccess
  | raises (msg : String)
deriving Repr, DecidableEq

/-- One iteration of the `_generate_segment_scripts` loop (`pipeline.py`
lines 415-487).  A failed result or empty prompt list just `continue`s with
no state change; success advances the segment to `prompts_generated` and
records the prompt; an exception marks the segment `failed` — in the last two
cases only if the id is present in the state. -/
def scriptsStep (oracle : String → PromptOutcome) (st : PipelineState)
    (id : String) : PipelineState :=
  match oracle id with
  | .resultFailed => st
  | .noPrompts => st
  | .ok p =>
    if (getSeg st.segments id).isSome then
      { st with segments := updateSeg st.segments id (fun ss =>
          { ss with status := .prompts_generated, enhanced_prompts := some [p] }) }
    else st
  | .raises _ =>
    if (getSeg st.segments id).isSome then
      { st with segments := updateSeg st.segments id (fun ss =>
          { ss with status := .failed }) }
    else st

/-- `_generate_segment_scripts` (`pipeline.py` lines 408-489). -/
def scriptsStage (oracle : String → PromptOutcome) (ids : List String)
    (st : PipelineState) : PipelineState :=
  ids.foldl (scriptsStep oracle) st

/-- One iteration of the `_generate_segment_images` loop (`pipeline.py`
lines 501-571).  A missing id or missing/empty prompt list `continue`s with
no change; a failed result, unsuccessful image, missing file, or exception
marks the segment `failed`; a successful image with an existing file records
the path and marks the segment `completed`. -/
def imagesStep (oracle : String → ImageOutcome) (st : PipelineState)
    (id : String) : PipelineState :=
  match getSeg st.segments id with
  | none => st
  | some ss =>
    match ss.enhanced_prompts with
    | none => st
    | some [] => st
    | some (_ :: _) =>
      match oracle id with
      | .resultFailed =>
        { st with segments := updateSeg st.segments id (fun s0 =>
            { s0 with status := .failed }) }
      | .raises _ =>
        { st with segments := updateSeg st.segments id (fun s0 =>
            { s0 with status := .failed }) }
      | .okNoSuccess =>
        { st with segments := updateSeg st.segments id (fun s0 =>
            { s0 with status := .failed }) }
      | .okImage path pathOk =>
        if pathOk then
          { st with segments := updateSeg st.segments id (fun s0 =>
              { s0 with status := .completed, image_path := some path }) }
        else
          { st with segments := updateSeg st.segments id (fun s0 =>
              { s0 with status := .failed }) }

/-- `_generate_segment_images` (`pipeline.py` lines 491-573). -/
def imagesStage (oracle : String → ImageOutcome) (ids : List String)
    (st : PipelineState) : PipelineState :=
  ids.foldl (imagesStep oracle) st

/-- The zero-padded segment id `f"segment_{index:02d}"`
(`pipeline.py` line 376). -/
def segIdOf (i : ℕ) : String :=
  "segment_" ++ (if i < 10 then "0" ++ toString i else toString i)

/-- The seeding of one `SegmentState` per segment at `SEGMENTED` status in
`_execute_segmentation_to_json` (`pipeline.py` lines 386-392). -/
def seedSegments (texts : List String) : List (String × SegmentState) :=
  ((List.range texts.length).zip texts).map (fun p =>
    (segIdOf (p.1 + 1),
      { segment_id := segIdOf (p.1 + 1)
        status := .segmented
        script_content := some p.2
        enhanced_prompts := none
        image_paths := none
        image_path := none
        error_message := none
        retry_count := 0 }))

/-- The state evolution of a successful `generate_content` run
(`pipeline.py` lines 100-178), parameterised by the segmentation result
(the per-segment texts) and the collaborator outcome oracles: the state is
initialised `PENDING` with no segments (`_initialize_state`), seeded with one
`SEGMENTED` state per segment (step 2), run through the per-segment script
stage (step 3) and image stage (step 4), and finally marked `COMPLETED`
(line 163) — unconditionally, whatever the per-segment outcomes were.
Nothing on this path ever touches `completed_segments`/`failed_segments`
(only the dead code `_process_segments` does). -/
def genContentCore (slug topic videoType outputDir : String)
    (texts : List String) (promptOracle : String → PromptOutcome)
    (imageOracle : String → ImageOutcome) : PipelineState :=
  let ids := (List.range texts.length).map (fun i => segIdOf (i + 1))
  let st0 : PipelineState :=
    { project_slug := slug
      topic := topic
      video_type := videoType
      output_dir := outputDir
      status := .pending
      segments := seedSegments texts
      total_segments := texts.length
      completed_segments := 0
      failed_segments := 0 }
  let st1 := scriptsStage promptOracle ids st0
  let st2 := imagesStage imageOracle ids st1
  { st2 with status := .completed }

/-- `_retry_segment` (`pipeline.py` lines 648-665): bump `retry_count` and
reset a `FAILED` segment to `PENDING`.  It invokes no collaborator. -/
def retrySegment (ss : SegmentState) : SegmentState :=
  let ss1 := { ss with retry_count := ss.retry_count + 1 }
  if ss1.status = .failed then { ss1 with status := .pending } else ss1

/-- Return value of `resume_pipeline`. -/
inductive ResumeOutcome
  | alreadyComplete (slug : String)
  | resumed (slug : String) (retried : ℕ)
deriving Repr, DecidableEq

/-- `resume_pipeline` (`pipeline.py` lines 199-252) on an already-loaded
state.  The second component is the list of collaborator invocations the call
makes — the resume path never calls a text- or image-generation collaborator,
so nothing is ever appended to it.  `failed_segments` (the local list at
lines 221-224) selects every segment with `status == FAILED or
status != COMPLETED`; when it is empty the call returns `already_complete`
immediately; otherwise each selected segment below the retry ceiling is
retried via `_retry_segment` and the state is marked `COMPLETED`
unconditionally. -/
def resumePipeline (maxRetries : ℕ) (st : PipelineState) :
    ResumeOutcome × PipelineState × List String :=
  let failedList := st.segments.filter
    (fun p => p.2.status = .failed ∨ p.2.status ≠ .completed)
  if failedList.isEmpty then
    (.alreadyComplete st.project_slug, st, [])
  else
    let segs' := st.segments.map (fun p =>
      if (p.2.status = .failed ∨ p.2.status ≠ .completed) ∧
          p.2.retry_count < maxRetries then
        (p.1, retrySegment p.2)
      else p)
    (.resumed st.project_slug failedList.length,
      { st with segments := segs', status := .completed }, [])

/-! ## Pipeline stage lemmas -/

theorem scriptsStep_counters (o : String → PromptOutcome) (st : PipelineState)
    (id : String) :
    (scriptsStep o st id).failed_segments = st.failed_segments ∧
    (scriptsStep o st id).completed_segments = st.completed_segments := by
  cases h : o id <;> simp only [scriptsStep, h] <;> (try split) <;>
    exact ⟨by trivial, by trivial⟩

theorem imagesStep_counters (o : String → ImageOutcome) (st : PipelineState)
    (id : String) :
    (imagesStep o st id).failed_segments = st.failed_segments ∧
    (imagesStep o st id).completed_segments = st.completed_segments := by
  cases hg : getSeg st.segments id with
  | none => simp only [imagesStep, hg]; exact ⟨by trivial, by trivial⟩
  | some ss =>
    cases hp : ss.enhanced_prompts with
    | none => simp only [imagesStep, hg, hp]; exact ⟨by trivial, by trivial⟩
    | some l =>
      cases l with
      | nil => simp only [imagesStep, hg, hp]; exact ⟨by trivial, by trivial⟩
      | cons p ps =>
        cases ho : o id <;> simp only [imagesStep, hg, hp, ho] <;> (try split) <;>
          exact ⟨by trivial, by trivial⟩

theorem scriptsStage_counters (o : String → PromptOutcome) :
    ∀ (ids : List String) (st : PipelineState),
    (scriptsStage o ids st).failed_segments = st.failed_segments ∧
    (scriptsStage o ids st).completed_segments = st.completed_segments
  | [], _ => ⟨rfl, rfl⟩
  | id :: ids', st => by
    have h1 := scriptsStep_counters o st id
    have h2 := scriptsStage_counters o ids' (scriptsStep o st id)
    exact ⟨h2.1.trans h1.1, h2.2.trans h1.2⟩

theorem imagesStage_counters (o : String → ImageOutcome) :
    ∀ (ids : List String) (st : PipelineState),
    (imagesStage o ids st).failed_segments = st.failed_segments ∧
    (imagesStage o ids st).completed_segments = st.completed_segments
  | [], _ => ⟨rfl, rfl⟩
  | id :: ids', st => by
    have h1 := imagesStep_counters o st id
    have h2 := imagesStage_counters o ids' (imagesStep o st id)
    exact ⟨h2.1.trans h1.1, h2.2.trans h1.2⟩

/-- Reachable per-segment statuses after seeding, scripts and images. -/
def okStatus (s : SegmentStatus) : Prop :=
  s = .segmented ∨ s = .prompts_generated ∨ s = .failed ∨ s = .completed

theorem updateSeg_status_ok (segs : List (String × SegmentState)) (k : String)
    (f : SegmentState → SegmentState)
    (hf : ∀ ss, okStatus (f ss).status)
    (hall : ∀ p ∈ segs, okStatus p.2.status) :
    ∀ p ∈ updateSeg segs k f, okStatus p.2.status := by
  intro p hp
  rw [updateSeg] at hp
  obtain ⟨q, hq, hqe⟩ := List.mem_map.mp hp
  by_cases hk : q.1 = k
  · rw [if_pos hk] at hqe
    rw [← hqe]
    exact hf q.2
  · rw [if_neg hk] at hqe
    rw [← hqe]
    exact hall q hq

theorem scriptsStep_status_ok (o : String → PromptOutcome) (st : PipelineState)
    (id : String) (hall : ∀ p ∈ st.segments, okStatus p.2.status) :
    ∀ p ∈ (scriptsStep o st id).segments, okStatus p.2.status := by
  cases h : o id with
  | resultFailed => simp only [scriptsStep, h]; exact hall
  | noPrompts => simp only [scriptsStep, h]; exact hall
  | ok prompt =>
    simp only [scriptsStep, h]
    split
    · show ∀ p ∈ updateSeg st.segments id (fun ss =>
          { ss with
            status := SegmentStatus.prompts_generated
            enhanced_prompts := some [prompt] }), okStatus p.2.status
      refine updateSeg_status_ok st.segments id _ ?_ hall
      intro ss
      exact Or.inr (Or.inl rfl)
    · exact hall
  | raises msg =>
    simp only [scriptsStep, h]
    split
    · show ∀ p ∈ updateSeg st.segments id (fun ss =>
          { ss with status := SegmentStatus.failed }), okStatus p.2.status
      refine updateSeg_status_ok st.segments id _ ?_ hall
      intro ss
      exact Or.inr (Or.inr (Or.inl rfl))
    · exact hall

theorem imagesStep_status_ok (o : String → ImageOutcome) (st : PipelineState)
    (id : String) (hall : ∀ p ∈ st.segments, okStatus p.2.status) :
    ∀ p ∈ (imagesStep o st id).segments, okStatus p.2.status := by
  cases hg : getSeg st.segments id with
  | none => simp only [imagesStep, hg]; exact hall
  | some ss =>
    cases hp : ss.enhanced_prompts with
    | none => simp only [imagesStep, hg, hp]; exact hall
    | some l =>
      cases l with
      | nil => simp only [imagesStep, hg, hp]; exact hall
      | cons p ps =>
        cases ho : o id with
        | resultFailed =>
          simp only [imagesStep, hg, hp, ho]
          show ∀ p ∈ updateSeg st.segments id (fun s0 =>
              { s0 with status := SegmentStatus.failed }), okStatus p.2.status
          refine updateSeg_status_ok st.segments id _ ?_ hall
          intro s0
          exact Or.inr (Or.inr (Or.inl rfl))
        | raises msg =>
          simp only [imagesStep, hg, hp, ho]
          show ∀ p ∈ updateSeg st.segments id (fun s0 =>
              { s0 with status := SegmentStatus.failed }), okStatus p.2.status
          refine updateSeg_status_ok st.segments id _ ?_ hall
          intro s0
          exact Or.inr (Or.inr (Or.inl rfl))
        | okNoSuccess =>
          simp only [imagesStep, hg, hp, ho]
          show ∀ p ∈ updateSeg st.segments id (fun s0 =>
              { s0 with status := SegmentStatus.failed }), okStatus p.2.status
          refine updateSeg_status_ok st.segments id _ ?_ hall
          intro s0
          exact Or.inr (Or.inr (Or.inl rfl))
        | okImage path pathOk =>
          simp only [imagesStep, hg, hp, ho]
          split
          · show ∀ p ∈ updateSeg st.segments id (fun s0 =>
                { s0 with
                  status := SegmentStatus.completed
                  image_path := some path }), okStatus p.2.status
            refine updateSeg_status_ok st.segments id _ ?_ hall
            intro s0
            exact Or.inr (Or.inr (Or.inr rfl))
          · show ∀ p ∈ updateSeg st.segments id (fun s0 =>
                { s0 with status := SegmentStatus.failed }), okStatus p.2.status
            refine updateSeg_status_ok st.segments id _ ?_ hall
            intro s0
            exact Or.inr (Or.inr (Or.inl rfl))

theorem scriptsStage_status_ok (o : String → PromptOutcome) :
    ∀ (ids : List String) (st : PipelineState),
    (∀ p ∈ st.segments, okStatus p.2.status) →
    ∀ p ∈ (scriptsStage o ids st).segments, okStatus p.2.status
  | [], _, hall => hall
  | id :: ids', st, hall =>
    scriptsStage_status_ok o ids' (scriptsStep o st id)
      (scriptsStep_status_ok o st id hall)

theorem imagesStage_status_ok (o : String → ImageOutcome) :
    ∀ (ids : List String) (st : PipelineState),
    (∀ p ∈ st.segments, okStatus p.2.status) →
    ∀ p ∈ (imagesStage o ids st).segments, okStatus p.2.status
  | [], _, hall => hall
  | id :: ids', st, hall =>
    imagesStage_status_ok o ids' (imagesStep o st id)
      (imagesStep_status_ok o st id hall)

/-! ## Claim C2 -/

/-- C2, as stated, is false: a `generate_content` run over one segment whose
prompt generation succeeds and whose image rendering returns a failed result
ends with `PipelineState.status = COMPLETED`, the segment's status `FAILED`,
and `failed_segments = 0` — the segment is neither completed nor counted in
the failed counter, because `generate_content` sets `COMPLETED`
unconditionally and no live code path updates `failed_segments`. -/
theorem c2_counterexample :
    (genContentCore "proj" "topic" "short" "out" ["text one"]
        (fun _ => .ok "p") (fun _ => .resultFailed)).status = .completed ∧
    (genContentCore "proj" "topic" "short" "out" ["text one"]
        (fun _ => .ok "p") (fun _ => .resultFailed)).failed_segments = 0 ∧
    ∃ p ∈ (genContentCore "proj" "topic" "short" "out" ["text one"]
        (fun _ => .ok "p") (fun _ => .resultFailed)).segments,
      p.2.status = .failed := by decide

/-- C2 (amended): when `generate_content` reaches its end, the pipeline
status is `completed` unconditionally; per-segment failures are recorded only
in the segment's own status field (every segment ends `segmented`,
`prompts_generated`, `failed` or `completed`), and the `failed_segments`
counter stays `0` — it is not maintained on this path. -/
theorem c2_amended_completed_invariant (slug topic vt od : String)
    (texts : List String) (pOr : String → PromptOutcome)
    (iOr : String → ImageOutcome) :
    (genContentCore slug topic vt od texts pOr iOr).status = .completed ∧
    (genContentCore slug topic vt od texts pOr iOr).failed_segments = 0 ∧
    ∀ p ∈ (genContentCore slug topic vt od texts pOr iOr).segments,
      okStatus p.2.status := by
  refine ⟨rfl, ?_, ?_⟩
  · show (imagesStage iOr _ (scriptsStage pOr _ _)).failed_segments = 0
    rw [(imagesStage_counters iOr _ _).1, (scriptsStage_counters pOr _ _).1]
  · show ∀ p ∈ (imagesStage iOr _ (scriptsStage pOr _ _)).segments, _
    apply imagesStage_status_ok
    apply scriptsStage_status_ok
    intro p hp
    rw [seedSegments] at hp
    obtain ⟨q, _, hqe⟩ := List.mem_map.mp hp
    rw [← hqe]
    exact Or.inl rfl

/-! ## Claim C3 -/

/-- A segment state as it stands after prompt generation succeeded. -/
def promptedSeg (id p : String) : SegmentState :=
  { segment_id := id
    status := .prompts_generated
    script_content := none
    enhanced_prompts := some [p]
    image_paths := none
    image_path := none
    error_message := none
    retry_count := 0 }

/-- The five-segment state entering the image stage in claim C3's scenario. -/
def fiveSegState (p1 p2 p3 p4 p5 : String) : PipelineState :=
  { project_slug := "proj"
    topic := "topic"
    video_type := "short"
    output_dir := "out"
    status := .running
    segments := [("segment_01", promptedSeg "segment_01" p1),
                 ("segment_02", promptedSeg "segment_02" p2),
                 ("segment_03", promptedSeg "segment_03" p3),
                 ("segment_04", promptedSeg "segment_04" p4),
                 ("segment_05", promptedSeg "segment_05" p5)]
    total_segments := 5
    completed_segments := 0
    failed_segments := 0 }

/-- C3: in the per-segment image stage, a collaborator failure on segment 3
of 5 marks only that segment `failed`; the loop continues and segments
1, 2, 4, 5 end `completed`. -/
theorem c3_image_failure_isolation (p1 p2 p3 p4 p5 : String)
    (iOr : String → ImageOutcome)
    (h3 : iOr "segment_03" = .resultFailed)
    (h1 : ∃ path, iOr "segment_01" = .okImage path true)
    (h2 : ∃ path, iOr "segment_02" = .okImage path true)
    (h4 : ∃ path, iOr "segment_04" = .okImage path true)
    (h5 : ∃ path, iOr "segment_05" = .okImage path true) :
    ((imagesStage iOr ["segment_01", "segment_02", "segment_03", "segment_04",
        "segment_05"] (fiveSegState p1 p2 p3 p4 p5)).segments.map
      (fun q => q.2.status)) =
    [.completed, .completed, .failed, .completed, .completed] := by
  obtain ⟨q1, h1⟩ := h1
  obtain ⟨q2, h2⟩ := h2
  obtain ⟨q4, h4⟩ := h4
  obtain ⟨q5, h5⟩ := h5
  simp +decide [imagesStage, imagesStep, fiveSegState, promptedSeg, getSeg,
    updateSeg, h1, h2, h3, h4, h5, List.find?]

/-- Witness for C3 at concrete prompts and a concrete oracle. -/
theorem c3_witness :
    ((imagesStage
        (fun id => if id = "segment_03" then .resultFailed
          else .okImage "img.png" true)
        ["segment_01", "segment_02", "segment_03", "segment_04", "segment_05"]
        (fiveSegState "a" "b" "c" "d" "e")).segments.map
      (fun q => q.2.status)) =
    [.completed, .completed, .failed, .completed, .completed] :=
  c3_image_failure_isolation "a" "b" "c" "d" "e" _
    (by decide) ⟨"img.png", by decide⟩ ⟨"img.png", by decide⟩
    ⟨"img.png", by decide⟩ ⟨"img.png", by decide⟩

/-! ## Claim C4 -/

/-- C4: `resume_pipeline` on a state in which every segment is `completed`
returns `already_complete` (with the project slug), leaves the state
untouched, and invokes no text- or image-generation collaborator (the
invocation log is empty — indeed the whole resume path contains no
collaborator call). -/
theorem c4_resume_already_complete (m : ℕ) (st : PipelineState)
    (h : ∀ p ∈ st.segments, p.2.status = .completed) :
    resumePipeline m st = (.alreadyComplete st.project_slug, st, []) := by
  rw [resumePipeline]
  have hf : st.segments.filter
      (fun p => decide (p.2.status = .failed ∨ p.2.status ≠ .completed)) = [] := by
    rw [List.filter_eq_nil_iff]
    intro p hp
    simp [h p hp]
  simp only [hf, List.isEmpty_nil, if_pos]

/-- Witness for C4 at a concrete two-segment fully-completed state. -/
theorem c4_witness :
    resumePipeline 3
      { project_slug := "proj", topic := "t", video_type := "v",
        output_dir := "o", status := .failed,
        segments := [("segment_01",
          { segment_id := "segment_01", status := .completed,
            script_content := none, enhanced_prompts := none,
            image_paths := none, image_path := none, error_message := none,
            retry_count := 0 }),
          ("segment_02",
          { segment_id := "segment_02", status := .completed,
            script_content := none, enhanced_prompts := none,
            image_paths := none, image_path := none, error_message := none,
            retry_count := 1 })],
        total_segments := 2, completed_segments := 2, failed_segments := 0 } =
      (.alreadyComplete "proj",
        { project_slug := "proj", topic := "t", video_type := "v",
          output_dir := "o", status := .failed,
          segments := [("segment_01",
            { segment_id := "segment_01", status := .completed,
              script_content := none, enhanced_prompts := none,
              image_paths := none, image_path := none, error_message := none,
              retry_count := 0 }),
            ("segment_02",
            { segment_id := "segment_02", status := .completed,
              script_content := none, enhanced_prompts := none,
              image_paths := none, image_path := none, error_message := none,
              retry_count := 1 })],
          total_segments := 2, completed_segments := 2, failed_segments := 0 },
        []) :=
  c4_resume_already_complete 3 _ (by decide)

/-! ## Crew embedding (`src/aiva_cli/crew_config/crew.py`)

The orchestrator `AivaCrew`: `execute`, `validate_workflow` and
`WorkflowResult.get_final_output`.  The opaque `data` payloads are a type
parameter; the agents are abstracted as behaviour functions from input to
either an `AgentResult` or an exception.  `execution_time` and `metadata` are
dropped (no claim depends on them); progress callbacks only observe and are
dropped. -/

/-- `AgentStatus` (`agents.py` lines 20-25). -/
inductive AgentStatus
  | idle | running | completed | failed
deriving Repr, DecidableEq

/-- `WorkflowStatus` (`crew.py` lines 23-29). -/
inductive WorkflowStatus
  | pending | running | completed | failed | cancelled
deriving Repr, DecidableEq

/-- `AgentResult` (`agents.py` lines 28-39), with opaque `data`. -/
structure AgentResult (Data : Type) where
  agent_name : String
  status : AgentStatus
  data : Option Data
  error : Option String
deriving DecidableEq

/-- `WorkflowResult` (`crew.py` lines 45-52); `agent_results` is Python's
insertion-ordered dict as an association list. -/
structure WorkflowResult (Data : Type) where
  status : WorkflowStatus
  agent_results : List (String × AgentResult Data)
  error : Option String
deriving DecidableEq

/-- Dict lookup in `agent_results`. -/
def lookupResult {Data : Type} (rs : List (String × AgentResult Data))
    (k : String) : Option (AgentResult Data) :=
  (rs.find? (fun p => p.1 = k)).map Prod.snd

/-- `WorkflowResult.get_final_output` (`crew.py` lines 54-71): `None` unless
the workflow completed; prefer the completed `image_render` result's data;
otherwise the data of the last completed agent in insertion order; `None`
when no agent completed.  (A completed agent whose `data` is `None` yields
`None` exactly as in Python.) -/
def getFinalOutput {Data : Type} (r : WorkflowResult Data) : Option Data :=
  if r.status = .completed then
    match lookupResult r.agent_results "image_render" with
    | some res =>
      if res.status = .completed then res.data
      else (r.agent_results.reverse.find?
        (fun p => p.2.status = .completed)).bind (fun p => p.2.data)
    | none =>
      (r.agent_results.reverse.find?
        (fun p => p.2.status = .completed)).bind (fun p => p.2.data)
  else none

/-- The four agents constructed by `_initialize_agents`
(`crew.py` lines 149-164). -/
def aivaAgents : List String := ["script", "segmenter", "prompt_gen", "image_render"]

/-- `_build_workflow_graph` (`crew.py` lines 166-174). -/
def aivaWorkflowGraph : List (String × List String) :=
  [("script", []), ("segmenter", ["script"]), ("prompt_gen", ["segmenter"]),
   ("image_render", ["prompt_gen"])]

/-- `WorkflowConfig` (`crew.py` lines 32-42). -/
structure WorkflowConfig where
  target_segments : Int
  target_duration : ℚ
  style_preset : String
  output_dir : String
  image_size : String
  enable_parallel : Bool
  max_retries : Int
  timeout_seconds : Int

/-- `AivaCrew.validate_workflow` (`crew.py` lines 390-421), parameterised by
the crew's `agents` keys, `workflow_graph`, config, and a file-system oracle
`mkdirOk` for the `Path(output_dir).mkdir` call.  Issues are appended in
source order: missing agents, dangling dependencies, non-positive
`target_segments`, non-positive `target_duration`, directory creation
failure. -/
def validateWorkflow (agents : List String)
    (graph : List (String × List String)) (cfg : WorkflowConfig)
    (mkdirOk : Bool) : List String :=
  let missing := (graph.map Prod.fst).filter (fun r => !agents.contains r)
  let issues1 := if missing.isEmpty then []
    else ["Missing agents: " ++ String.intercalate ", " missing]
  let issues2 := graph.flatMap (fun p =>
    (p.2.filter (fun d => !agents.contains d)).map
      (fun d => "Agent " ++ p.1 ++ " depends on missing agent " ++ d))
  let issues3 := if cfg.target_segments ≤ 0 then
    ["target_segments must be positive"] else []
  let issues4 := if cfg.target_duration ≤ 0 then
    ["target_duration must be positive"] else []
  let issues5 := if mkdirOk then [] else
    ["Cannot create output directory: OSError"]
  issues1 ++ issues2 ++ issues3 ++ issues4 ++ issues5

/-- Behaviour of one agent call in `AivaCrew.execute`: either it returns an
`AgentResult`, or an exception escapes it. -/
inductive ExecBehavior (Data : Type)
  | result (r : AgentResult Data)
  | raises (msg : String)

/-- `_get_execution_order` (`crew.py` lines 225-228). -/
def execOrder : List String := ["script", "segmenter", "prompt_gen", "image_render"]

/-- `_prepare_agent_input` (`crew.py` lines 230-246): no dependencies → no
input; otherwise the data of the most recent dependency if it completed. -/
def prepareAgentInput {Data : Type} (graph : List (String × List String))
    (name : String) (results : List (String × AgentResult Data)) : Option Data :=
  match (graph.find? (fun p => p.1 = name)).map Prod.snd with
  | none => none
  | some [] => none
  | some deps =>
    match deps.getLast? with
    | none => none
    | some latest =>
      match lookupResult results latest with
      | some r => if r.status = .completed then r.data else none
      | none => none

/-- In-place overwrite of the stored result for a key
(`agent_results[agent_name] = …` on an existing key keeps its position). -/
def updateResult {Data : Type} (rs : List (String × AgentResult Data))
    (k : String) (r : AgentResult Data) : List (String × AgentResult Data) :=
  rs.map (fun p => if p.1 = k then (p.1, r) else p)

/-- Loop state of `AivaCrew.execute`: stored results, `current_input`, and
the log of agents invoked so far (in order). -/
structure ExecSt (Data : Type) where
  results : List (String × AgentResult Data)
  currentInput : Option Data
  log : List String

/-- The agent loop of `AivaCrew.execute` (`crew.py` lines 289-346).  For each
agent in order: resolve its input (`script` gets `current_input`, everyone
else `_prepare_agent_input`), invoke it, store the result.  A failed result
triggers `_should_continue_on_error` (always `False`), so an exception is
raised and caught by the inner handler, which overwrites the stored result
with a fresh failed one and breaks; an exception from the agent itself is
caught by the same handler.  The second component is `some errorMsg` iff the
loop broke. -/
def execLoop {Data : Type} (behaviors : String → Option Data → ExecBehavior Data) :
    List String → ExecSt Data → ExecSt Data × Option String
  | [], st => (st, none)
  | name :: rest, st =>
    let input := if name = "script" then st.currentInput
      else prepareAgentInput aivaWorkflowGraph name st.results
    let st1 : ExecSt Data := { st with log := st.log ++ [name] }
    match behaviors name input with
    | .raises msg =>
      let emsg := "Error executing " ++ name ++ ": " ++ msg
      ({ st1 with results := st1.results ++
          [(name, ⟨name, .failed, none, some emsg⟩)] }, some emsg)
    | .result r =>
      let st2 : ExecSt Data := { st1 with results := st1.results ++ [(name, r)] }
      if r.status = .failed then
        let emsg := "Error executing " ++ name ++ ": Agent " ++ name ++
          " failed: " ++ (r.error.getD "None")
        ({ st2 with results := (updateResult st2.results name
            ⟨name, .failed, none, some emsg⟩) }, some emsg)
      else
        execLoop behaviors rest { st2 with currentInput := r.data }

/-- `AivaCrew.execute` (`crew.py` lines 269-378): run the loop over the
execution order starting from the raw `script_content`; a break leaves the
workflow `FAILED` with the error recorded, otherwise it is `COMPLETED`.
Returns the `WorkflowResult` together with the invocation log. -/
def execute {Data : Type} (behaviors : String → Option Data → ExecBehavior Data)
    (script : Option Data) : WorkflowResult Data × List String :=
  match execLoop behaviors execOrder ⟨[], script, []⟩ with
  | (st, some emsg) => (⟨.failed, st.results, some emsg⟩, st.log)
  | (st, none) => (⟨.completed, st.results, none⟩, st.log)

/-! ## Claim C8 -/

/-- C8: `validate_workflow` flags non-positive `target_segments` with the
message "target_segments must be positive", and returns an empty issue list
iff the configuration is valid: every agent of the workflow graph resolvable,
no dangling dependency, strictly positive `target_segments` and
`target_duration`, and creatable output directory. -/
theorem c8_validate_workflow (agents : List String)
    (graph : List (String × List String)) (cfg : WorkflowConfig)
    (mkdirOk : Bool) :
    (cfg.target_segments ≤ 0 →
      "target_segments must be positive" ∈ validateWorkflow agents graph cfg mkdirOk) ∧
    (validateWorkflow agents graph cfg mkdirOk = [] ↔
      ((∀ r ∈ graph.map Prod.fst, agents.contains r) ∧
       (∀ p ∈ graph, ∀ d ∈ p.2, agents.contains d) ∧
       0 < cfg.target_segments ∧ 0 < cfg.target_duration ∧ mkdirOk = true)) := by
  constructor
  · intro h
    simp only [validateWorkflow]
    rw [if_pos h]
    simp
  · simp only [validateWorkflow, List.append_eq_nil]
    constructor
    · rintro ⟨⟨⟨⟨h1, h2⟩, h3⟩, h4⟩, h5⟩
      refine ⟨?_, ?_, ?_, ?_, ?_⟩
      · intro r hr
        by_cases hc : agents.contains r
        · exact hc
        · exfalso
          have hm : r ∈ (graph.map Prod.fst).filter (fun x => !agents.contains x) :=
            List.mem_filter.mpr ⟨hr, by simpa using hc⟩
          have : ¬ ((graph.map Prod.fst).filter
              (fun x => !agents.contains x)).isEmpty = true := by
            intro he
            rw [List.isEmpty_iff] at he
            rw [he] at hm
            exact absurd hm (List.not_mem_nil r)
          rw [if_neg this] at h1
          exact absurd h1 (by simp)
      · intro p hp d hd
        by_cases hc : agents.contains d
        · exact hc
        · exfalso
          have : ("Agent " ++ p.1 ++ " depends on missing agent " ++ d) ∈
              graph.flatMap (fun q =>
                (q.2.filter (fun x => !agents.contains x)).map
                  (fun x => "Agent " ++ q.1 ++ " depends on missing agent " ++ x)) := by
            rw [List.mem_flatMap]
            exact ⟨p, hp, List.mem_map.mpr
              ⟨d, List.mem_filter.mpr ⟨hd, by simpa using hc⟩, rfl⟩⟩
          rw [h2] at this
          exact absurd this (List.not_mem_nil _)
      · by_contra hc
        rw [if_pos (by omega)] at h3
        exact absurd h3 (by simp)
      · by_contra hc
        rw [if_pos (by linarith [not_lt.mp hc])] at h4
        exact absurd h4 (by simp)
      · by_contra hc
        rw [if_neg (by simpa using hc)] at h5
        exact absurd h5 (by simp)
    · rintro ⟨h1, h2, h3, h4, h5⟩
      refine ⟨⟨⟨⟨?_, ?_⟩, ?_⟩, ?_⟩, ?_⟩
      · have hm : ((graph.map Prod.fst).filter
            (fun r => !agents.contains r)).isEmpty = true := by
          rw [List.isEmpty_iff, List.filter_eq_nil_iff]
          intro r hr
          simpa using h1 r hr
        rw [if_pos hm]
      · rw [List.flatMap_eq_nil_iff]
        intro p hp
        rw [List.map_eq_nil_iff, List.filter_eq_nil_iff]
        intro d hd
        simpa using h2 p hp d hd
      · rw [if_neg (by omega)]
      · rw [if_neg (by simp only [not_le]; exact h4)]
      · rw [if_pos h5]

/-- Witness for C8: the real crew (four agents, chain graph) with
`target_segments = -1` yields an issue list containing the
`target_segments must be positive` message, hence non-empty. -/
theorem c8_witness :
    ("target_segments must be positive" ∈ validateWorkflow aivaAgents
      aivaWorkflowGraph ⟨-1, 8, "cinematic_4k", "./output", "1024x1024",
        false, 3, 300⟩ true) ∧
    ¬ (validateWorkflow aivaAgents aivaWorkflowGraph
      ⟨-1, 8, "cinematic_4k", "./output", "1024x1024", false, 3, 300⟩ true = []) := by
  have h := c8_validate_workflow aivaAgents aivaWorkflowGraph
    ⟨-1, 8, "cinematic_4k", "./output", "1024x1024", false, 3, 300⟩ true
  refine ⟨h.1 (by norm_num), ?_⟩
  intro he
  have := h.2.mp he
  have h3 := this.2.2.1
  norm_num at h3

/-! ## Claim C9 -/

/-- Overwriting the stored result for a key does not change the key list. -/
theorem updateResult_keys {Data : Type} (rs : List (String × AgentResult Data))
    (k : String) (r : AgentResult Data) :
    (updateResult rs k r).map Prod.fst = rs.map Prod.fst := by
  simp only [updateResult, List.map_map]
  apply List.map_congr_left
  intro p _
  by_cases h : p.1 = k <;> simp [h]

/-- Membership in an overwritten result list: either the overwritten entry
for the key, or an untouched entry with a different key. -/
theorem mem_updateResult {Data : Type} (rs : List (String × AgentResult Data))
    (k : String) (r : AgentResult Data) (p : String × AgentResult Data)
    (hp : p ∈ updateResult rs k r) :
    (p.1 = k ∧ p.2 = r) ∨ (p ∈ rs ∧ p.1 ≠ k) := by
  simp only [updateResult, List.mem_map] at hp
  obtain ⟨q, hq, hpq⟩ := hp
  by_cases h : q.1 = k
  · rw [if_pos h] at hpq
    left
    rw [← hpq]
    exact ⟨h, rfl⟩
  · rw [if_neg h] at hpq
    right
    rw [← hpq]
    exact ⟨hq, h⟩

/-- Structure of the `execute` loop: starting from fail-free stored results,
either the loop runs through all agents — the log and the stored keys extend
by exactly the agent names, and no stored result is failed — or it breaks at
some position `k`: the log and the stored keys extend by exactly the first
`k + 1` names, and every failed stored result sits at the breaking name. -/
theorem execLoop_spec {Data : Type}
    (behaviors : String → Option Data → ExecBehavior Data)
    (names : List String) :
    ∀ (st : ExecSt Data), (∀ p ∈ st.results, p.2.status ≠ .failed) →
    ((execLoop behaviors names st).2 = none →
      (execLoop behaviors names st).1.log = st.log ++ names ∧
      (execLoop behaviors names st).1.results.map Prod.fst
        = st.results.map Prod.fst ++ names ∧
      ∀ p ∈ (execLoop behaviors names st).1.results, p.2.status ≠ .failed) ∧
    (∀ e, (execLoop behaviors names st).2 = some e →
      ∃ k, k < names.length ∧
        (execLoop behaviors names st).1.log = st.log ++ names.take (k+1) ∧
        (execLoop behaviors names st).1.results.map Prod.fst
          = st.results.map Prod.fst ++ names.take (k+1) ∧
        ∀ p ∈ (execLoop behaviors names st).1.results,
          p.2.status = .failed → names[k]? = some p.1) := by
  induction names with
  | nil =>
    intro st hinit
    constructor
    · intro _
      exact ⟨by simp [execLoop], by simp [execLoop],
        by simpa [execLoop] using hinit⟩
    · intro e he
      simp [execLoop] at he
  | cons name rest ih =>
    intro st hinit
    cases hb : behaviors name (if name = "script" then st.currentInput
        else prepareAgentInput aivaWorkflowGraph name st.results) with
    | raises msg =>
      have hstep : execLoop behaviors (name :: rest) st =
          (⟨st.results ++ [(name, ⟨name, .failed, none,
              some ("Error executing " ++ name ++ ": " ++ msg)⟩)],
            st.currentInput, st.log ++ [name]⟩,
           some ("Error executing " ++ name ++ ": " ++ msg)) := by
        simp only [execLoop, hb]
      constructor
      · intro hnone
        rw [hstep] at hnone
        exact absurd hnone (by simp)
      · intro e he
        refine ⟨0, by simp, ?_, ?_, ?_⟩
        · rw [hstep]
          simp
        · rw [hstep]
          simp
        · intro p hp hpf
          rw [hstep] at hp
          rcases List.mem_append.mp hp with h1 | h2
          · exact absurd hpf (hinit p h1)
          · have hpe : p = (name, ⟨name, .failed, none,
                some ("Error executing " ++ name ++ ": " ++ msg)⟩) := by
              simpa using h2
            rw [hpe]
            simp
    | result r =>
      by_cases hfail : r.status = .failed
      · have hstep : execLoop behaviors (name :: rest) st =
            (⟨updateResult (st.results ++ [(name, r)]) name
                ⟨name, .failed, none, some ("Error executing " ++ name ++
                  ": Agent " ++ name ++ " failed: " ++ (r.error.getD "None"))⟩,
              st.currentInput, st.log ++ [name]⟩,
             some ("Error executing " ++ name ++ ": Agent " ++ name ++
               " failed: " ++ (r.error.getD "None"))) := by
          simp only [execLoop, hb]
          split
          · rfl
          · next h => exact absurd hfail h
        constructor
        · intro hnone
          rw [hstep] at hnone
          exact absurd hnone (by simp)
        · intro e he
          refine ⟨0, by simp, ?_, ?_, ?_⟩
          · rw [hstep]
            simp
          · rw [hstep]
            show (updateResult (st.results ++ [(name, r)]) name _).map Prod.fst = _
            rw [updateResult_keys]
            simp
          · intro p hp hpf
            rw [hstep] at hp
            rcases mem_updateResult _ _ _ p hp with ⟨h1, _⟩ | ⟨h1, h2⟩
            · simp [h1]
            · rcases List.mem_append.mp h1 with h3 | h3
              · exact absurd hpf (hinit p h3)
              · have hpe : p = (name, r) := by simpa using h3
                exact absurd (by rw [hpe]) h2
      · have hstep : execLoop behaviors (name :: rest) st =
            execLoop behaviors rest
              ⟨st.results ++ [(name, r)], r.data, st.log ++ [name]⟩ := by
          simp only [execLoop, hb]
          split
          · next h => exact absurd h hfail
          · rfl
        have hinit2 : ∀ p ∈ (⟨st.results ++ [(name, r)], r.data,
            st.log ++ [name]⟩ : ExecSt Data).results, p.2.status ≠ .failed := by
          intro p hp
          rcases List.mem_append.mp hp with h1 | h2
          · exact hinit p h1
          · have hpe : p = (name, r) := by simpa using h2
            rw [hpe]
            exact hfail
        have ih2 := ih ⟨st.results ++ [(name, r)], r.data, st.log ++ [name]⟩ hinit2
        rw [hstep]
        constructor
        · intro hnone
          obtain ⟨hl, hk, hf⟩ := ih2.1 hnone
          refine ⟨?_, ?_, hf⟩
          · rw [hl]
            simp
          · rw [hk]
            simp
        · intro e he
          obtain ⟨k, hk, hl, hkeys, hf⟩ := ih2.2 e he
          refine ⟨k + 1, by simpa using hk, ?_, ?_, ?_⟩
          · rw [hl]
            simp
          · rw [hkeys]
            simp
          · intro p hp hpf
            simpa using hf p hp hpf

/-- In a list without duplicates, an element found at position `j` does not
occur among the first `t ≤ j` elements. -/
theorem not_mem_take_of_nodup {α : Type} (l : List α) (hnd : l.Nodup)
    (t j : ℕ) (htj : t ≤ j) (a : α) (hj : l[j]? = some a) : a ∉ l.take t := by
  intro hmem
  obtain ⟨m, hm⟩ := List.get?_of_mem hmem
  rw [List.get?_eq_getElem?, List.getElem?_take] at hm
  by_cases hmt : m < t
  · rw [if_pos hmt] at hm
    have hmlen : m < l.length := (List.getElem?_eq_some.mp hm).1
    have hmj : m = j := List.getElem?_inj hmlen hnd (hm.trans hj.symm)
    omega
  · rw [if_neg hmt] at hm
    exact absurd hm (by simp)

/-- C9: `AivaCrew.execute` is fail-fast.  If the stored result for the agent
at position `i` of the execution order is failed, then the workflow status is
`failed`, exactly the first `i + 1` agents were invoked, and no agent after
position `i` was invoked or has a stored result. -/
theorem c9_fail_fast {Data : Type}
    (behaviors : String → Option Data → ExecBehavior Data) (script : Option Data)
    (i : ℕ) (name : String) (hname : execOrder[i]? = some name)
    (r : AgentResult Data) (hfail : r.status = .failed)
    (hlook : lookupResult (execute behaviors script).1.agent_results name = some r) :
    (execute behaviors script).1.status = .failed ∧
    (execute behaviors script).2 = execOrder.take (i + 1) ∧
    (∀ j nm, i < j → execOrder[j]? = some nm →
      lookupResult (execute behaviors script).1.agent_results nm = none ∧
      nm ∉ (execute behaviors script).2) := by
  have hspec := execLoop_spec behaviors execOrder ⟨[], script, []⟩
    (by intro p hp; simp at hp)
  rcases hE : execLoop behaviors execOrder ⟨[], script, []⟩ with ⟨st2, err⟩
  rw [hE] at hspec
  cases err with
  | none =>
    exfalso
    obtain ⟨_, _, hok⟩ := hspec.1 rfl
    simp only [execute, hE] at hlook
    rw [lookupResult] at hlook
    obtain ⟨q, hq, hq2⟩ := Option.map_eq_some'.mp hlook
    exact hok q (List.mem_of_find?_eq_some hq) (by rw [hq2]; exact hfail)
  | some e =>
    obtain ⟨k, hk, hlog, hkeys, honly⟩ := hspec.2 e rfl
    simp only [execute, hE] at hlook ⊢
    rw [lookupResult] at hlook
    obtain ⟨q, hq, hq2⟩ := Option.map_eq_some'.mp hlook
    have hqname : q.1 = name := by simpa using List.find?_some hq
    have hkq : execOrder[k]? = some name := by
      rw [← hqname]
      exact honly q (List.mem_of_find?_eq_some hq) (by rw [hq2]; exact hfail)
    have hik : i = k := by
      have hilen : i < execOrder.length := (List.getElem?_eq_some.mp hname).1
      exact List.getElem?_inj hilen (by decide) (hname.trans hkq.symm)
    refine ⟨by trivial, ?_, ?_⟩
    · rw [hlog, hik]
      simp
    · intro j nm hij hj
      have hnodup : execOrder.Nodup := by decide
      have hnm : nm ∉ execOrder.take (k + 1) :=
        not_mem_take_of_nodup execOrder hnodup (k + 1) j (by omega) nm hj
      constructor
      · rw [lookupResult, Option.map_eq_none', List.find?_eq_none]
        intro p hp
        simp only [decide_eq_true_eq]
        intro hpeq
        have hmem : p.1 ∈ st2.results.map Prod.fst :=
          List.mem_map.mpr ⟨p, hp, rfl⟩
        rw [hkeys] at hmem
        simp only [List.nil_append, List.map_nil] at hmem
        rw [hpeq] at hmem
        exact hnm hmem
      · rw [hlog]
        simp only [List.nil_append]
        exact hnm

/-- Concrete agent behaviours for the C9 witness: the `segmenter` agent
returns a failed result, every other agent completes. -/
def c9Behaviors : String → Option Unit → ExecBehavior Unit := fun name _ =>
  if name = "segmenter" then .result ⟨"SegmenterAgent", .failed, none, some "boom"⟩
  else .result ⟨name, .completed, some (), none⟩

/-- Witness for C9: with the `segmenter` (position 1) failing, the workflow
ends failed, exactly `script` and `segmenter` were invoked, and `prompt_gen`
(position 2) was neither invoked nor given a stored result. -/
theorem c9_witness :
    (execute c9Behaviors (some ())).1.status = .failed ∧
    (execute c9Behaviors (some ())).2 = execOrder.take 2 ∧
    lookupResult (execute c9Behaviors (some ())).1.agent_results "prompt_gen"
      = none ∧
    "prompt_gen" ∉ (execute c9Behaviors (some ())).2 := by
  have h := c9_fail_fast c9Behaviors (some ()) 1 "segmenter" (by decide)
    ⟨"segmenter", .failed, none,
      some "Error executing segmenter: Agent segmenter failed: boom"⟩
    rfl (by decide)
  obtain ⟨h1, h2, h3⟩ := h
  have h4 := h3 2 "prompt_gen" (by omega) (by decide)
  exact ⟨h1, h2, h4.1, h4.2⟩

/-! ## Claim C10 -/

/-- C10, as stated, is false: a `WorkflowResult` with status `COMPLETED` and
no agent results makes `get_final_output` return `None`, which is not "the
data of a completed agent". -/
theorem c10_counterexample :
    ∃ r : WorkflowResult Unit, r.status = .completed ∧ r.agent_results = [] ∧
      getFinalOutput r = none :=
  ⟨⟨.completed, [], none⟩, rfl, rfl, by decide⟩

/-- `find?` over a reversed list returns the last matching element of the
original list: if position `k` matches and every later position does not,
the search returns the element at `k`. -/
theorem find?_reverse_last {α : Type} (l : List α) (p : α → Bool) (k : ℕ)
    (hk : k < l.length) (hpk : p l[k] = true)
    (hlater : ∀ m, k < m → ∀ (hm : m < l.length), p l[m] = false) :
    l.reverse.find? p = some l[k] := by
  have hdecomp : l.reverse = (l.drop (k + 1)).reverse ++ (l.take (k + 1)).reverse := by
    rw [← List.reverse_append, List.take_append_drop]
  rw [hdecomp, List.find?_append]
  have hnone : (l.drop (k + 1)).reverse.find? p = none := by
    rw [List.find?_eq_none]
    intro a ha
    rw [List.mem_reverse] at ha
    obtain ⟨j, hj, hja⟩ := List.mem_iff_getElem.mp ha
    have hlen : k + 1 + j < l.length := by
      rw [List.length_drop] at hj
      omega
    have hgd : (l.drop (k + 1))[j] = l[k + 1 + j] := List.getElem_drop ..
    rw [hgd] at hja
    rw [← hja]
    simp [hlater (k + 1 + j) (by omega) hlen]
  rw [hnone]
  have htake : l.take (k + 1) = l.take k ++ [l[k]] := by
    rw [List.take_succ, List.getElem?_eq_getElem hk]
    rfl
  rw [htake, List.reverse_append]
  simp only [List.reverse_cons, List.reverse_nil, List.nil_append,
    List.singleton_append]
  rw [List.find?_cons_of_pos _ hpk]
  rfl

/-- C10 (amended): `get_final_output` returns `None` whenever the workflow
status is not `completed`.  When it is `completed`: if the stored
`image_render` result completed, its data is returned; otherwise (no
`image_render` entry, or a non-completed one) the data of the last completed
agent in insertion order is returned — the entry at position `k` whenever it
completed and every later entry did not; and when no agent result completed
the method returns `None` (a completed agent whose `data` is `None` likewise
yields `None`, since its data is what is returned). -/
theorem c10_amended_final_output {Data : Type} (r : WorkflowResult Data) :
    (r.status ≠ .completed → getFinalOutput r = none) ∧
    (r.status = .completed →
      ∀ res, lookupResult r.agent_results "image_render" = some res →
        res.status = .completed → getFinalOutput r = res.data) ∧
    (r.status = .completed →
      (∀ res, lookupResult r.agent_results "image_render" = some res →
        res.status ≠ .completed) →
      ∀ k, ∀ (hk : k < r.agent_results.length),
        (r.agent_results[k]).2.status = .completed →
        (∀ m, k < m → ∀ (hm : m < r.agent_results.length),
          (r.agent_results[m]).2.status ≠ .completed) →
        getFinalOutput r = (r.agent_results[k]).2.data) ∧
    (r.status = .completed →
      (∀ p ∈ r.agent_results, p.2.status ≠ .completed) →
      getFinalOutput r = none) := by
  refine ⟨?_, ?_, ?_, ?_⟩
  · intro h
    rw [getFinalOutput, if_neg h]
  · intro h res hres hcomp
    simp [getFinalOutput, h, hres, hcomp]
  · intro h hguard k hk hcomp hlater
    have hfind : r.agent_results.reverse.find?
        (fun p => p.2.status = .completed) = some (r.agent_results[k]) := by
      apply find?_reverse_last r.agent_results _ k hk
      · simpa using hcomp
      · intro m h1 hm
        simpa using hlater m h1 hm
    rw [getFinalOutput, if_pos h]
    cases hlk : lookupResult r.agent_results "image_render" with
    | none =>
      simp [hfind]
    | some res =>
      have hres := hguard res hlk
      simp [hres, hfind]
  · intro h hall
    have hnone : r.agent_results.reverse.find?
        (fun p => p.2.status = .completed) = none := by
      rw [List.find?_eq_none]
      intro a ha
      rw [List.mem_reverse] at ha
      simp [hall a ha]
    rw [getFinalOutput, if_pos h]
    cases hlk : lookupResult r.agent_results "image_render" with
    | none =>
      simp [hnone]
    | some res =>
      have hres : res.status ≠ .completed := by
        rw [lookupResult] at hlk
        obtain ⟨q, hq, hq2⟩ := Option.map_eq_some'.mp hlk
        rw [← hq2]
        exact hall q (List.mem_of_find?_eq_some hq)
      simp [hres, hnone]

/-- The C10 witness workflow: completed, with two completed agents in
insertion order (`script`, then `segmenter`) and a failed `image_render`. -/
def c10Wf : WorkflowResult String :=
  ⟨.completed,
   [("script", ⟨"ScriptAgent", .completed, some "script-data", none⟩),
    ("segmenter", ⟨"SegmenterAgent", .completed, some "segments-data", none⟩),
    ("image_render", ⟨"ImageRenderAgent", .failed, none, some "boom"⟩)],
   none⟩

/-- Witness for C10 (amended): with `image_render` failed and two completed
agents, `get_final_output` returns the data of the LAST completed agent in
insertion order (`segmenter`, position 1), not the first. -/
theorem c10_witness : getFinalOutput c10Wf = some "segments-data" := by
  have hguard : ∀ res, lookupResult c10Wf.agent_results "image_render" = some res →
      res.status ≠ AgentStatus.completed := by
    intro res hres
    have h0 : lookupResult c10Wf.agent_results "image_render"
        = some ⟨"ImageRenderAgent", .failed, none, some "boom"⟩ := by decide
    rw [h0] at hres
    injection hres with he
    rw [← he]
    decide
  have hlater : ∀ m, 1 < m → ∀ (hm : m < c10Wf.agent_results.length),
      (c10Wf.agent_results[m]).2.status ≠ AgentStatus.completed := by
    intro m h1 hm
    have hm2 : m = 2 := by
      have hlen : c10Wf.agent_results.length = 3 := by decide
      omega
    subst hm2
    have h2 : c10Wf.agent_results[2]? = some ("image_render",
        ⟨"ImageRenderAgent", .failed, none, some "boom"⟩) := by decide
    rw [List.getElem?_eq_getElem hm] at h2
    injection h2 with he
    rw [he]
    decide
  have h := (c10_amended_final_output c10Wf).2.2.1 rfl hguard 1 (by decide)
    (by decide) hlater
  exact h.trans (by decide)

end Aiva
